import Mathlib

/-!
Shallow embedding of the schema-less protocol-buffer codec in
`src/lensProto.py` (classes `ProtoReader`, `ProtoWriter`, `ProtoField`,
`ProtoBuf`).  Byte buffers are `List Nat` (each element a byte value),
Python integers are `Int`/`Nat`, Python exceptions are the `Except PErr`
monad.  Each definition mirrors one Python method; the Python `while`
loops over a shrinking buffer are encoded either by structural recursion
on the buffer or with an explicit fuel argument (the top-level entry
points pass `length + 1`, which is shown sufficient by the lemmas below:
every loop iteration consumes at least one byte).
-/

namespace LensProto

/-- Error kinds raised by the codec.  Python raises `ProtoError` with a
message (or lets `IndexError` escape to be wrapped by `ProtoBuf.__init__`
into a "Data truncated" `ProtoError`); we give each distinct raise site a
constructor.  `truncated` corresponds to the `IndexError` raised by
`ProtoReader.read0`/`read`. -/
inductive PErr where
  | truncated
  | varintTooLong
  | invalidFieldIndex
  | unexpectedGroupEnd
  | unterminatedGroup
  | skipUnknownType
  | skipStandaloneGroupEnd
  | truncatedSkippingGroup
  | typeError
  | overflow
  | unsupportedDictValue
  | invalidDictKey
  | nonUtf8
  | outOfFuel
deriving DecidableEq, Repr

/-- `ProtoReader.read`: take `n` bytes if available, else `IndexError`. -/
def readN (n : Nat) (l : List Nat) : Except PErr (List Nat × List Nat) :=
  if n ≤ l.length then .ok (l.take n, l.drop n) else .error .truncated

/-- Little-endian byte composition, as `int.from_bytes(-, "little")`. -/
def fromLE : List Nat → Nat
  | [] => 0
  | b :: t => b + 256 * fromLE t

/-- `ProtoReader.readInt32`. -/
def readInt32 (l : List Nat) : Except PErr (Nat × List Nat) :=
  (readN 4 l).map (fun p => (fromLE p.1, p.2))

/-- `ProtoReader.readInt64`. -/
def readInt64 (l : List Nat) : Except PErr (Nat × List Nat) :=
  (readN 8 l).map (fun p => (fromLE p.1, p.2))

/-- Loop body of `ProtoReader.readVarint`: accumulator `vint`, group
counter `n`; reading an empty buffer is the `IndexError` of `read0`;
after the 11th continuation byte the counter `n` exceeds 10 and the
Python code raises "Varint too long". -/
def readVarintAux : List Nat → Nat → Nat → Except PErr (Nat × List Nat)
  | [], _, _ => .error .truncated
  | b :: rest, vint, n =>
    let vint' := vint ||| ((b &&& 0x7F) <<< (7 * n))
    if b < 0x80 then .ok (vint', rest)
    else if n + 1 > 10 then .error .varintTooLong
    else readVarintAux rest vint' (n + 1)

/-- `ProtoReader.readVarint`. -/
def readVarint (l : List Nat) : Except PErr (Nat × List Nat) :=
  readVarintAux l 0 0

/-- `ProtoReader.readString`: a varint length then that many bytes. -/
def readString (l : List Nat) : Except PErr (List Nat × List Nat) := do
  let (len, r) ← readVarint l
  readN len r

/-- Emission loop of `ProtoWriter.writeVarint` (`while temp_vint > 0`),
with a structural fuel argument so the definition reduces; one unit of
fuel per 7-bit group suffices, and `v` itself is always enough fuel
(`wvLoop` below; the loop value shrinks by a factor 128 per step). -/
def wvLoopF : Nat → Nat → List Nat
  | _, 0 => []
  | 0, _ + 1 => []
  | f + 1, w + 1 =>
    let byte := (w + 1) &&& 0x7F
    let rest := (w + 1) >>> 7
    (if rest > 0 then byte ||| 0x80 else byte) :: wvLoopF f rest

/-- Emission loop of `ProtoWriter.writeVarint`. -/
def wvLoop (v : Nat) : List Nat := wvLoopF v v

/-- `ProtoWriter.writeVarint`: special-cases zero; for a negative
argument the `while temp_vint > 0` loop never runs, so nothing at all is
appended (`Int.toNat` of a negative number is `0` and `wvLoop 0 = []`). -/
def writeVarint (v : Int) : List Nat :=
  if v = 0 then [0] else wvLoop v.toNat

/-- Little-endian bytes, as `int.to_bytes(k, "little")` for in-range values. -/
def toLE : Nat → Nat → List Nat
  | 0, _ => []
  | k + 1, v => (v % 256) :: toLE k (v / 256)

/-- `ProtoWriter.writeInt32`: `to_bytes(4, "little", signed=False)`
raises `OverflowError` outside `[0, 2^32)`. -/
def writeInt32 (v : Int) : Except PErr (List Nat) :=
  if 0 ≤ v ∧ v < 2 ^ 32 then .ok (toLE 4 v.toNat) else .error .overflow

/-- `ProtoWriter.writeInt64`. -/
def writeInt64 (v : Int) : Except PErr (List Nat) :=
  if 0 ≤ v ∧ v < 2 ^ 64 then .ok (toLE 8 v.toNat) else .error .overflow

/-- `ProtoWriter.writeString`: varint length prefix then the bytes. -/
def writeString (b : List Nat) : List Nat :=
  writeVarint (b.length : Int) ++ b

/-! ## The field tree -/

mutual
/-- The value slot of a Python `ProtoField` is untyped; the values the
codec actually stores are integers (`int`), byte strings (`bytes`) and
nested `ProtoBuf` objects. -/
inductive PVal where
  | int (v : Int)
  | bytes (b : List Nat)
  | msg (fields : List ProtoField)

/-- `ProtoField(idx, type, val)`; `type` is the numeric value of the
`ProtoFieldType` enum (VARINT=0, INT64=1, STRING=2, GROUPSTART=3,
GROUPEND=4, INT32=5). -/
inductive ProtoField where
  | mk (idx : Nat) (type : Nat) (val : PVal)
end

def ProtoField.idx : ProtoField → Nat
  | .mk i _ _ => i

def ProtoField.type : ProtoField → Nat
  | .mk _ t _ => t

def ProtoField.val : ProtoField → PVal
  | .mk _ _ v => v

mutual
def PVal.beq : PVal → PVal → Bool
  | .int a, .int b => a == b
  | .bytes a, .bytes b => a == b
  | .msg a, .msg b => ProtoField.beqList a b
  | _, _ => false
def ProtoField.beq : ProtoField → ProtoField → Bool
  | .mk i t v, .mk i2 t2 v2 => i == i2 && t == t2 && PVal.beq v v2
def ProtoField.beqList : List ProtoField → List ProtoField → Bool
  | [], [] => true
  | a :: as, b :: bs => ProtoField.beq a b && ProtoField.beqList as bs
  | _, _ => false
end

/-! ## Serialization (`ProtoBuf.toBuf`) -/

mutual
/-- Per-field body of the `for field in self.fields` loop of
`ProtoBuf.toBuf`: the tag varint `(idx << 3) | (type & 7)` followed by
the value, dispatched on the wire type in the order the Python
`if`/`elif` chain tests them (VARINT, INT64, STRING, INT32, GROUPSTART,
GROUPEND, else).  For a STRING field whose value is a nested `ProtoBuf`
the nested tree is serialized first; a non-bytes value is passed through
`bytes(...)`, which for a non-negative `int` `n` yields `n` zero bytes
and fails otherwise.  For a GROUPSTART field the end tag
`(idx << 3) | GROUPEND` is synthesized from the field number.  A stored
GROUPEND field writes its tag and then `pass`es. -/
def serField : ProtoField → Except PErr (List Nat)
  | .mk idx t v =>
    let key : Nat := (idx <<< 3) ||| (t &&& 7)
    let keyB := writeVarint (key : Int)
    if t = 0 then
      match v with
      | .int n => .ok (keyB ++ writeVarint n)
      | _ => .error .typeError
    else if t = 1 then
      match v with
      | .int n => (writeInt64 n).map (fun c => keyB ++ c)
      | _ => .error .typeError
    else if t = 2 then
      match v with
      | .msg sub => (serFields sub).map (fun c => keyB ++ writeString c)
      | .bytes b => .ok (keyB ++ writeString b)
      | .int n =>
        if 0 ≤ n then .ok (keyB ++ writeString (List.replicate n.toNat 0))
        else .error .typeError
    else if t = 5 then
      match v with
      | .int n => (writeInt32 n).map (fun c => keyB ++ c)
      | _ => .error .typeError
    else if t = 3 then
      match v with
      | .msg sub =>
        (serFields sub).map
          (fun c => keyB ++ c ++ writeVarint (((idx <<< 3) ||| 4 : Nat) : Int))
      | _ => .error .typeError
    else if t = 4 then .ok keyB
    else .error .typeError

/-- `ProtoBuf.toBuf`: serialize the fields in insertion order. -/
def serFields : List ProtoField → Except PErr (List Nat)
  | [] => .ok []
  | f :: fs => do
    let c ← serField f
    let cs ← serFields fs
    .ok (c ++ cs)
end

/-! ## Skipping (`ProtoReader.skipField`) -/

mutual
/-- `ProtoReader.skipField`.  The GROUPSTART case runs the Python
`while depth > 0` loop via `skipGroupLoop`; `fuel` only feeds that loop
(each iteration consumes at least one byte, so any fuel of at least
`l.length + 1` is sufficient). -/
def skipField (fuel : Nat) (wt : Nat) (l : List Nat) : Except PErr (List Nat) :=
  if wt = 0 then (readVarint l).map (fun p => p.2)
  else if wt = 1 then (readN 8 l).map (fun p => p.2)
  else if wt = 2 then do
    let (len, r) ← readVarint l
    let (_, r2) ← readN len r
    .ok r2
  else if wt = 3 then skipGroupLoop fuel 1 l
  else if wt = 4 then .error .skipStandaloneGroupEnd
  else if wt = 5 then (readN 4 l).map (fun p => p.2)
  else .error .skipUnknownType

/-- The `while depth > 0` loop inside the GROUPSTART case of
`ProtoReader.skipField`. -/
def skipGroupLoop : Nat → Nat → List Nat → Except PErr (List Nat)
  | 0, _, _ => .error .outOfFuel
  | _ + 1, 0, l => .ok l
  | fuel + 1, depth + 1, l =>
    match l with
    | [] => .error .truncatedSkippingGroup
    | _ :: _ =>
      match readVarint l with
      | .error e => .error e
      | .ok (key, r) =>
        let wt := key &&& 0x7
        if wt = 4 then skipGroupLoop fuel depth r
        else if wt = 3 then skipGroupLoop fuel (depth + 2) r
        else
          match skipField fuel wt r with
          | .error e => .error e
          | .ok r2 => skipGroupLoop fuel (depth + 1) r2
end

/-! ## Parsing (`ProtoBuf._parseFields`) -/

/-- `ProtoBuf._parseFields(reader, group_idx_end)`.  The Python
`while reader.isRemain(1)` loop appends to `self.fields`; here each
iteration is one recursive call that prepends its field.  The result is
(fields parsed, remaining buffer, "group end found" flag); the flag is
`True` when the loop ends at the top level or at a matching GROUPEND
tag, `False` when the buffer runs out while `group_idx_end` is set.
`fuel` decreases by one per loop iteration and per group recursion;
every iteration consumes at least the one key byte, so the top-level
fuel `length + 1` never runs out (proved below). -/
def parseFields : Nat → List Nat → Option Nat → Except PErr (List ProtoField × List Nat × Bool)
  | 0, _, _ => .error .outOfFuel
  | fuel + 1, l, g =>
    match l with
    | [] => .ok ([], [], g.isNone)
    | _ :: _ =>
      match readVarint l with
      | .error e => .error e
      | .ok (key, r1) =>
        let wt := key &&& 0x7
        let idx := key >>> 3
        if idx = 0 then .error .invalidFieldIndex
        else if 6 ≤ wt then
          -- `ProtoFieldType(wire_type_val)` raises `ValueError`; the
          -- handler calls `skipField`, which for wire types 6/7 fails.
          match skipField r1.length wt r1 with
          | .error e => .error e
          | .ok r2 => parseFields fuel r2 g
        else if wt = 4 then
          if g = some idx then .ok ([], r1, true)
          else .error .unexpectedGroupEnd
        else if wt = 3 then
          match parseFields fuel r1 (some idx) with
          | .error e => .error e
          | .ok (sub, r2, foundEnd) =>
            if foundEnd then
              match parseFields fuel r2 g with
              | .error e => .error e
              | .ok (fs, r3, fd) => .ok (.mk idx 3 (.msg sub) :: fs, r3, fd)
            else .error .unterminatedGroup
        else
          match
            (if wt = 0 then (readVarint r1).map (fun p => (PVal.int p.1, p.2))
             else if wt = 1 then (readInt64 r1).map (fun p => (PVal.int p.1, p.2))
             else if wt = 2 then (readString r1).map (fun p => (PVal.bytes p.1, p.2))
             else (readInt32 r1).map (fun p => (PVal.int p.1, p.2))) with
          | .error e => .error e
          | .ok (v, r2) =>
            match parseFields fuel r2 g with
            | .error e => .error e
            | .ok (fs, r3, fd) => .ok (.mk idx wt v :: fs, r3, fd)

/-- `ProtoBuf.__init__` on a byte buffer: an empty buffer yields an
empty field list without parsing; otherwise `_parseFields` runs over the
whole buffer. -/
def ofBytes (B : List Nat) : Except PErr (List ProtoField) :=
  if 0 < B.length then
    match parseFields (B.length + 1) B none with
    | .ok (fs, _, _) => .ok fs
    | .error e => .error e
  else .ok []

/-! ## Field access (`ProtoBuf.get*`) and mutation (`ProtoBuf.put*`) -/

/-- `ProtoBuf.get`: first field with the given number, if any. -/
def get : List ProtoField → Nat → Option ProtoField
  | [], _ => none
  | f :: fs, idx => if f.idx = idx then some f else get fs idx

/-- `ProtoBuf.getList`: all fields with the given number, in order. -/
def getList (fs : List ProtoField) (idx : Nat) : List ProtoField :=
  fs.filter (fun f => f.idx = idx)

/-- `ProtoBuf.getInt`: default `0` when the field is missing; the stored
value (whatever it is) when the first match has an integer wire type;
`ProtoError` otherwise. -/
def getInt (fs : List ProtoField) (idx : Nat) : Except PErr PVal :=
  match get fs idx with
  | none => .ok (.int 0)
  | some pf =>
    if pf.type = 5 ∨ pf.type = 1 ∨ pf.type = 0 then .ok pf.val
    else .error .typeError

/-- ASCII decimal digits of a natural number, as Python `str(n)`. -/
def natDecimal (n : Nat) : List Nat :=
  if n < 10 then [48 + n] else natDecimal (n / 10) ++ [48 + n % 10]
decreasing_by omega

/-- `str(v).encode("utf-8")` for a Python `int` (a minus sign then
decimal digits). -/
def decimalBytes (v : Int) : List Nat :=
  if v < 0 then 45 :: natDecimal (-v).toNat else natDecimal v.toNat

/-- Python `str(...)` of a bare `ProtoBuf` object is its default `repr`,
which embeds the object's memory address; it is not a function of the
tree, so this defensive branch of `getBytes` (STRING field holding a
`ProtoBuf` value, which the codec itself never constructs) is modelled
by an unspecified constant.  No claim depends on it. -/
def objReprBytes (_t : List ProtoField) : List Nat := []

/-- `ProtoBuf.getBytes`: `None` when missing; the raw bytes of a STRING
field (a non-bytes value goes through `str(...).encode("utf-8")`); the
re-serialized bytes of a GROUPSTART field; `ProtoError` otherwise. -/
def getBytes (fs : List ProtoField) (idx : Nat) : Except PErr (Option (List Nat)) :=
  match get fs idx with
  | none => .ok none
  | some pf =>
    if pf.type = 2 then
      match pf.val with
      | .bytes b => .ok (some b)
      | .int v => .ok (some (decimalBytes v))
      | .msg t => .ok (some (objReprBytes t))
    else if pf.type = 3 then
      match pf.val with
      | .msg t => (serFields t).map some
      | _ => .error .typeError
    else .error .typeError

/-! ### UTF-8

`bytes.decode("utf-8")` / `str.encode("utf-8")` with CPython's strict
error handling: over-long forms, surrogates and code points above
`0x10FFFF` are rejected.  Strings are lists of Unicode code points. -/

/-- A UTF-8 continuation byte. -/
def utf8Cont (c : Nat) : Bool := 0x80 ≤ c && c ≤ 0xBF

/-- Strict UTF-8 decoding of a byte list to code points. -/
def decodeUtf8 : List Nat → Option (List Nat)
  | [] => some []
  | b :: rest =>
    if b ≤ 0x7F then (decodeUtf8 rest).map (fun t => b :: t)
    else if 0xC2 ≤ b && b ≤ 0xDF then
      match rest with
      | c1 :: r =>
        if utf8Cont c1 then
          (decodeUtf8 r).map (fun t => (((b &&& 0x1F) <<< 6) ||| (c1 &&& 0x3F)) :: t)
        else none
      | [] => none
    else if 0xE0 ≤ b && b ≤ 0xEF then
      match rest with
      | c1 :: c2 :: r =>
        if (if b = 0xE0 then decide (0xA0 ≤ c1 && c1 ≤ 0xBF : Bool)
            else if b = 0xED then decide (0x80 ≤ c1 && c1 ≤ 0x9F : Bool)
            else utf8Cont c1) && utf8Cont c2 then
          (decodeUtf8 r).map
            (fun t => ((((b &&& 0x0F) <<< 12) ||| ((c1 &&& 0x3F) <<< 6)) ||| (c2 &&& 0x3F)) :: t)
        else none
      | _ => none
    else if 0xF0 ≤ b && b ≤ 0xF4 then
      match rest with
      | c1 :: c2 :: c3 :: r =>
        if (if b = 0xF0 then decide (0x90 ≤ c1 && c1 ≤ 0xBF : Bool)
            else if b = 0xF4 then decide (0x80 ≤ c1 && c1 ≤ 0x8F : Bool)
            else utf8Cont c1) && utf8Cont c2 && utf8Cont c3 then
          (decodeUtf8 r).map
            (fun t =>
              (((((b &&& 0x07) <<< 18) ||| ((c1 &&& 0x3F) <<< 12)) |||
                  ((c2 &&& 0x3F) <<< 6)) ||| (c3 &&& 0x3F)) :: t)
        else none
      | _ => none
    else none

/-- UTF-8 encoding of one code point; surrogates and out-of-range code
points raise `UnicodeEncodeError`. -/
def encodeUtf8Char (c : Nat) : Except PErr (List Nat) :=
  if c ≤ 0x7F then .ok [c]
  else if c ≤ 0x7FF then .ok [0xC0 ||| (c >>> 6), 0x80 ||| (c &&& 0x3F)]
  else if 0xD800 ≤ c && c ≤ 0xDFFF then .error .nonUtf8
  else if c ≤ 0xFFFF then
    .ok [0xE0 ||| (c >>> 12), 0x80 ||| ((c >>> 6) &&& 0x3F), 0x80 ||| (c &&& 0x3F)]
  else if c ≤ 0x10FFFF then
    .ok [0xF0 ||| (c >>> 18), 0x80 ||| ((c >>> 12) &&& 0x3F),
         0x80 ||| ((c >>> 6) &&& 0x3F), 0x80 ||| (c &&& 0x3F)]
  else .error .nonUtf8

/-- `str.encode("utf-8")` over a list of code points. -/
def encodeUtf8 : List Nat → Except PErr (List Nat)
  | [] => .ok []
  | c :: cs => do
    let b ← encodeUtf8Char c
    let bs ← encodeUtf8 cs
    .ok (b ++ bs)

/-- `ProtoBuf.getUtf8`. -/
def getUtf8 (fs : List ProtoField) (idx : Nat) : Except PErr (Option (List Nat)) :=
  match getBytes fs idx with
  | .error e => .error e
  | .ok none => .ok none
  | .ok (some bs) =>
    match decodeUtf8 bs with
    | some s => .ok (some s)
    | none => .error .nonUtf8

/-- `ProtoBuf.getProtoBuf`: `None` when missing; re-parse the bytes of a
STRING field (`ProtoBuf(non-bytes)` raises); the stored tree of a
GROUPSTART field; `ProtoError` otherwise. -/
def getProtoBuf (fs : List ProtoField) (idx : Nat) : Except PErr (Option (List ProtoField)) :=
  match get fs idx with
  | none => .ok none
  | some pf =>
    if pf.type = 2 then
      match pf.val with
      | .bytes b => (ofBytes b).map some
      | _ => .error .typeError
    else if pf.type = 3 then
      match pf.val with
      | .msg t => .ok (some t)
      | _ => .error .typeError
    else .error .typeError

/-- `ProtoBuf.put`: append a field. -/
def put (fs : List ProtoField) (f : ProtoField) : List ProtoField := fs ++ [f]

/-- `ProtoBuf.putInt32`. -/
def putInt32 (fs : List ProtoField) (idx : Nat) (v : Int) : List ProtoField :=
  put fs (.mk idx 5 (.int v))

/-- `ProtoBuf.putInt64`. -/
def putInt64 (fs : List ProtoField) (idx : Nat) (v : Int) : List ProtoField :=
  put fs (.mk idx 1 (.int v))

/-- `ProtoBuf.putVarint`. -/
def putVarint (fs : List ProtoField) (idx : Nat) (v : Int) : List ProtoField :=
  put fs (.mk idx 0 (.int v))

/-- `ProtoBuf.putBytes`. -/
def putBytes (fs : List ProtoField) (idx : Nat) (b : List Nat) : List ProtoField :=
  put fs (.mk idx 2 (.bytes b))

/-- `ProtoBuf.putUtf8` (the `str.encode` step can raise). -/
def putUtf8 (fs : List ProtoField) (idx : Nat) (s : List Nat) : Except PErr (List ProtoField) :=
  (encodeUtf8 s).map (fun b => put fs (.mk idx 2 (.bytes b)))

/-- `ProtoBuf.putGroup`. -/
def putGroup (fs : List ProtoField) (idx : Nat) (sub : List ProtoField) : List ProtoField :=
  put fs (.mk idx 3 (.msg sub))

/-! ## Generic Python values and dict import/export -/

/-- The Python values `ProtoBuf._parseDict` / `ProtoBuf.toDictAuto` deal
in: integers, text strings (code points), byte strings, integer-keyed
dicts in insertion order, lists, and `ProtoBuf` objects.  `errorDict`
stands for the `{"__error__": ...}` dict that `toDictAuto` builds in its
defensive GROUPSTART branch (its string key is not representable in an
integer-keyed mapping; the codec itself never stores a non-tree value
under GROUPSTART, and no claim depends on that branch). -/
inductive PyVal where
  | int (v : Int)
  | str (s : List Nat)
  | bytes (b : List Nat)
  | dict (entries : List (Nat × PyVal))
  | list (items : List PyVal)
  | pb (fields : List ProtoField)
  | errorDict

mutual
/-- `ProtoBuf._parseDict` over the dict's items in insertion order.
Python rejects non-positive-integer keys; keys here are `Nat`, so only
the zero check remains visible.  The structural `fuel` argument bounds
the recursion into nested dicts; the entry point `ofDict` passes a
sufficient budget (`sizeOf` of the dict). -/
def parseDictF : Nat → List (Nat × PyVal) → Except PErr (List ProtoField)
  | 0, _ => .error .outOfFuel
  | _ + 1, [] => .ok []
  | fuel + 1, (k, v) :: rest =>
    if k = 0 then .error .invalidDictKey
    else do
      let fs1 ←
        match v with
        | .list xs => parseDictItemsF fuel k xs
        | w => parseDictItemF fuel k w
      let fs2 ← parseDictF fuel rest
      .ok (fs1 ++ fs2)

/-- The `for item in values_to_process` loop of `_parseDict`. -/
def parseDictItemsF : Nat → Nat → List PyVal → Except PErr (List ProtoField)
  | 0, _, _ => .error .outOfFuel
  | _ + 1, _, [] => .ok []
  | fuel + 1, k, x :: xs => do
    let f ← parseDictItemF fuel k x
    let fs ← parseDictItemsF fuel k xs
    .ok (f ++ fs)

/-- One item of `_parseDict`: `int → putVarint`, `str → putUtf8`,
`bytes → putBytes`, `dict → putProtoBuf(k, ProtoBuf(item))` (the nested
tree is serialized to bytes), `ProtoBuf → putProtoBuf`; anything else
(e.g. a nested list) is `UnsupportedValueType`. -/
def parseDictItemF : Nat → Nat → PyVal → Except PErr (List ProtoField)
  | 0, _, _ => .error .outOfFuel
  | _ + 1, k, .int v => .ok [.mk k 0 (.int v)]
  | _ + 1, k, .str s => (encodeUtf8 s).map (fun b => [.mk k 2 (.bytes b)])
  | _ + 1, k, .bytes b => .ok [.mk k 2 (.bytes b)]
  | fuel + 1, k, .dict d => do
    let sub ← parseDictF fuel d
    let bts ← serFields sub
    .ok [.mk k 2 (.bytes bts)]
  | _ + 1, k, .pb fs => (serFields fs).map (fun b => [.mk k 2 (.bytes b)])
  | _ + 1, _, _ => .error .unsupportedDictValue
end

mutual
/-- Structural size of a Python value, used to size fuel budgets. -/
def pySize : PyVal → Nat
  | .dict d => 1 + pySizeEntries d
  | .list xs => 1 + pySizeItems xs
  | _ => 1
termination_by structural v => v
def pySizeEntries : List (Nat × PyVal) → Nat
  | [] => 0
  | (_, v) :: rest => 1 + pySize v + pySizeEntries rest
termination_by structural l => l
def pySizeItems : List PyVal → Nat
  | [] => 0
  | v :: rest => 1 + pySize v + pySizeItems rest
termination_by structural l => l
end

/-- `ProtoBuf._parseDict` with its fuel budget. -/
def parseDict (d : List (Nat × PyVal)) : Except PErr (List ProtoField) :=
  parseDictF (pySizeEntries d + 1) d

/-- `ProtoBuf.__init__` on a dict: an empty dict yields an empty tree. -/
def ofDict (d : List (Nat × PyVal)) : Except PErr (List ProtoField) :=
  if 0 < d.length then parseDict d else .ok []

/-- CPython `c.isprintable() or c.isspace()` for one code point, exact
on the ASCII range (printable: `0x20`–`0x7E`; whitespace: TAB–CR and
FS–US).  The full Unicode tables are outside the model; code points at
or above `0x80` are conservatively classified as neither, and no
theorem below evaluates the classifier there. -/
def pyPrintableOrSpace (c : Nat) : Bool :=
  (0x20 ≤ c && c ≤ 0x7E) || (9 ≤ c && c ≤ 13) || (28 ≤ c && c ≤ 31)

/-- Insert into `toDictAuto`'s `intermediate` dict of value lists,
preserving first-occurrence key order. -/
def addIntermediate : List (Nat × List PyVal) → Nat → PyVal → List (Nat × List PyVal)
  | [], k, v => [(k, [v])]
  | (k2, vs) :: rest, k, v =>
    if k2 = k then (k2, vs ++ [v]) :: rest
    else (k2, vs) :: addIntermediate rest k v

/-- The final loop of `toDictAuto`: a single-element value list becomes
a bare scalar, a longer one an ordered list. -/
def collapseIntermediate (m : List (Nat × List PyVal)) : List (Nat × PyVal) :=
  m.map (fun p =>
    match p.2 with
    | [v] => (p.1, v)
    | vs => (p.1, .list vs))

mutual
/-- `ProtoBuf.toDictAuto`.  The structural `fuel` argument bounds the
speculative reparse-as-submessage recursion (Python recurses on trees
parsed from strictly smaller byte strings); the top-level entry point
passes a sufficient budget.  Errors model the `AttributeError` a STRING
field with a non-bytes value would raise. -/
def toDictAutoF : Nat → List ProtoField → Except PErr (List (Nat × PyVal))
  | 0, _ => .error .outOfFuel
  | fuel + 1, fields => (toDictAutoGo fuel fields []).map collapseIntermediate

/-- The `for field in self.fields` loop of `toDictAuto`, carrying the
`intermediate` mapping; a field whose wire type sets no `value`
(GROUPEND or out-of-range) is skipped. -/
def toDictAutoGo : Nat → List ProtoField → List (Nat × List PyVal) →
    Except PErr (List (Nat × List PyVal))
  | 0, _, _ => .error .outOfFuel
  | _ + 1, [], m => .ok m
  | fuel + 1, f :: fs, m =>
    match fieldAutoValue fuel f with
    | .error e => .error e
    | .ok (some v) => toDictAutoGo fuel fs (addIntermediate m f.idx v)
    | .ok none => toDictAutoGo fuel fs m

/-- The per-field classifier of `toDictAuto`: integer wire types expose
the stored value; LENGTH_DELIM tries UTF-8 text (printable-or-space),
then a speculative reparse, then raw bytes; GROUPSTART recursively
exports its tree. -/
def fieldAutoValue : Nat → ProtoField → Except PErr (Option PyVal)
  | 0, _ => .error .outOfFuel
  | fuel + 1, f =>
    if f.type = 0 || f.type = 1 || f.type = 5 then
      .ok (some
        (match f.val with
         | .int v => .int v
         | .bytes b => .bytes b
         | .msg t => .pb t))
    else if f.type = 2 then
      match f.val with
      | .bytes b =>
        match decodeUtf8 b with
        | some s =>
          if s.all pyPrintableOrSpace then .ok (some (.str s))
          else tryNestedValue fuel b
        | none => tryNestedValue fuel b
      | _ => .error .typeError
    else if f.type = 3 then
      match f.val with
      | .msg t => (toDictAutoF fuel t).map (fun d => some (.dict d))
      | _ => .ok (some .errorDict)
    else .ok none

/-- The speculative `ProtoBuf(field.val)` reparse of `toDictAuto`: a
parse yielding at least one field is exported as a nested mapping, an
empty or failed parse degrades to raw bytes. -/
def tryNestedValue : Nat → List Nat → Except PErr (Option PyVal)
  | 0, _ => .error .outOfFuel
  | fuel + 1, b =>
    match ofBytes b with
    | .ok t =>
      if t.isEmpty then .ok (some (.bytes b))
      else (toDictAutoF fuel t).map (fun d => some (.dict d))
    | .error _ => .ok (some (.bytes b))
end

/-- Weight of a tree: an upper bound for the byte length of any buffer
a subtree was parsed from, used to size the fuel budget of
`toDictAuto`. -/
def pbWeight : List ProtoField → Nat
  | [] => 0
  | .mk _ _ v :: fs =>
    (match v with
     | .int _ => 1
     | .bytes b => 1 + b.length
     | .msg t => 1 + pbWeight t) + pbWeight fs

/-- `ProtoBuf.toDictAuto` with its (sufficient) fuel budget. -/
def toDictAuto (fields : List ProtoField) : Except PErr (List (Nat × PyVal)) :=
  toDictAutoF (4 * pbWeight fields + 4) fields

/-! ## Specification helpers (not part of the embedding) -/

/-- The numeric value of a varint byte chunk (little-endian base-128
digits, low 7 bits of each byte). -/
def varintVal : List Nat → Nat
  | [] => 0
  | b :: t => b % 128 + 128 * varintVal t

/-- Shape of the chunk a successful `readVarint` consumes: nonempty,
continuation bit set on every byte but the last. -/
def varintShape : List Nat → Bool
  | [] => false
  | [b] => b < 128
  | b :: t => 128 ≤ b && varintShape t

/-- `a` is a minimal re-encoding of `b`: never longer, and equal
whenever the lengths agree. -/
def SubEnc (a b : List Nat) : Prop :=
  a.length ≤ b.length ∧ (a.length = b.length → a = b)

mutual
/-- The number of group-nesting levels of a tree. -/
def treeDepth : List ProtoField → Nat
  | [] => 0
  | f :: fs => max (fieldDepth f) (treeDepth fs)
termination_by structural l => l
/-- Nesting depth contributed by one field. -/
def fieldDepth : ProtoField → Nat
  | .mk _ _ v => valDepth v
termination_by structural f => f
/-- Nesting depth of a stored value. -/
def valDepth : PVal → Nat
  | .msg t => treeDepth t + 1
  | _ => 0
termination_by structural v => v
end

/-- The chain of `n` nested groups, all numbered 1 (what parsing
`[tag(1,GROUPSTART)]*n ++ [tag(1,GROUPEND)]*n` produces). -/
def nestTree : Nat → List ProtoField
  | 0 => []
  | n + 1 => [.mk 1 3 (.msg (nestTree n))]

mutual
/-- Wellformedness of a field built by a `put*` call with in-range
arguments (and, for groups, produced by parsing): positive field number
below the protobuf tag limit `2^29`, value in range for the wire type,
bytes genuine. -/
inductive WfField : ProtoField → Prop where
  | varint (idx : Nat) (n : Int) (hidx1 : 1 ≤ idx) (hidx2 : idx < 2 ^ 29)
      (hn0 : 0 ≤ n) (hn1 : n < 2 ^ 64) : WfField (.mk idx 0 (.int n))
  | fix64 (idx : Nat) (n : Int) (hidx1 : 1 ≤ idx) (hidx2 : idx < 2 ^ 29)
      (hn0 : 0 ≤ n) (hn1 : n < 2 ^ 64) : WfField (.mk idx 1 (.int n))
  | str (idx : Nat) (b : List Nat) (hidx1 : 1 ≤ idx) (hidx2 : idx < 2 ^ 29)
      (hb : ∀ x ∈ b, x < 256) (hlen : b.length < 2 ^ 64) :
      WfField (.mk idx 2 (.bytes b))
  | group (idx : Nat) (sub : List ProtoField) (hidx1 : 1 ≤ idx)
      (hidx2 : idx < 2 ^ 29) (hsub : WfFields sub) : WfField (.mk idx 3 (.msg sub))
  | fix32 (idx : Nat) (n : Int) (hidx1 : 1 ≤ idx) (hidx2 : idx < 2 ^ 29)
      (hn0 : 0 ≤ n) (hn1 : n < 2 ^ 32) : WfField (.mk idx 5 (.int n))

/-- Wellformedness of a whole tree. -/
inductive WfFields : List ProtoField → Prop where
  | nil : WfFields []
  | cons {f : ProtoField} {fs : List ProtoField} (hf : WfField f)
      (hfs : WfFields fs) : WfFields (f :: fs)
end

/-- Wellformedness of a field built by one of the scalar put operations
(`putVarint`/`putInt32`/`putInt64`/`putBytes`/`putUtf8`): no groups. -/
inductive WfScalarField : ProtoField → Prop where
  | varint (idx : Nat) (n : Int) (hidx1 : 1 ≤ idx) (hidx2 : idx < 2 ^ 29)
      (hn0 : 0 ≤ n) (hn1 : n < 2 ^ 64) : WfScalarField (.mk idx 0 (.int n))
  | fix64 (idx : Nat) (n : Int) (hidx1 : 1 ≤ idx) (hidx2 : idx < 2 ^ 29)
      (hn0 : 0 ≤ n) (hn1 : n < 2 ^ 64) : WfScalarField (.mk idx 1 (.int n))
  | str (idx : Nat) (b : List Nat) (hidx1 : 1 ≤ idx) (hidx2 : idx < 2 ^ 29)
      (hb : ∀ x ∈ b, x < 256) (hlen : b.length < 2 ^ 64) :
      WfScalarField (.mk idx 2 (.bytes b))
  | fix32 (idx : Nat) (n : Int) (hidx1 : 1 ≤ idx) (hidx2 : idx < 2 ^ 29)
      (hn0 : 0 ≤ n) (hn1 : n < 2 ^ 32) : WfScalarField (.mk idx 5 (.int n))

/-- A tree built only from scalar puts with in-range arguments. -/
inductive WfScalarFields : List ProtoField → Prop where
  | nil : WfScalarFields []
  | cons {f : ProtoField} {fs : List ProtoField} (hf : WfScalarField f)
      (hfs : WfScalarFields fs) : WfScalarFields (f :: fs)

/-- `writeVarint` at a natural argument (every varint the serializer
emits is of this form). -/
def wvN (v : Nat) : List Nat := writeVarint (v : Int)

/-- The bit length of a natural number (`v.bit_length()` in Python):
`0` for `0`, otherwise one more than the index of the highest set bit. -/
def bitsOf (v : Nat) : Nat := if v = 0 then 0 else Nat.log2 v + 1

mutual
/-- The group invariant of a stored tree: no field has wire type
GROUPEND (4), and every field of wire type GROUPSTART (3) holds a
nested tree satisfying the same invariant. -/
def noGroupEnd : List ProtoField → Bool
  | [] => true
  | f :: fs => fieldNoGroupEnd f && noGroupEnd fs
termination_by structural l => l
/-- The group invariant of one stored field. -/
def fieldNoGroupEnd : ProtoField → Bool
  | .mk _ t v => (t != 4) && (if t = 3 then valIsTree v else true)
termination_by structural f => f
/-- The stored value is a nested tree satisfying the group invariant. -/
def valIsTree : PVal → Bool
  | .msg sub => noGroupEnd sub
  | _ => false
termination_by structural v => v
end

/-- The bytes the serializer appends after a parsed field list to close
the context it was parsed in: a synthesized GROUPEND tag when the list
was parsed inside group `e` and the matching end tag was found, nothing
otherwise. -/
def endBytes : Option Nat → Bool → List Nat
  | some e, true => wvN (8 * e + 4)
  | _, _ => []

/-! ## Decidable equality instances -/

mutual
theorem PVal.beq_iff : (a b : PVal) → (PVal.beq a b = true ↔ a = b)
  | .int x, .int y => by simp [PVal.beq]
  | .bytes x, .bytes y => by simp [PVal.beq]
  | .msg x, .msg y => by
    simp only [PVal.beq, ProtoField.beqList_iff x y, PVal.msg.injEq]
  | .int x, .bytes y => by simp [PVal.beq]
  | .int x, .msg y => by simp [PVal.beq]
  | .bytes x, .int y => by simp [PVal.beq]
  | .bytes x, .msg y => by simp [PVal.beq]
  | .msg x, .int y => by simp [PVal.beq]
  | .msg x, .bytes y => by simp [PVal.beq]
theorem ProtoField.beqField_iff : (a b : ProtoField) → (ProtoField.beq a b = true ↔ a = b)
  | .mk i t v, .mk i2 t2 v2 => by
    simp [ProtoField.beq, PVal.beq_iff v v2, Bool.and_eq_true, ProtoField.mk.injEq, and_assoc]
theorem ProtoField.beqList_iff : (a b : List ProtoField) → (ProtoField.beqList a b = true ↔ a = b)
  | [], [] => by simp [ProtoField.beqList]
  | a :: as, b :: bs => by
    simp [ProtoField.beqList, ProtoField.beqField_iff a b, ProtoField.beqList_iff as bs]
  | [], _ :: _ => by simp [ProtoField.beqList]
  | _ :: _, [] => by simp [ProtoField.beqList]
end

instance : DecidableEq PVal := fun a b =>
  decidable_of_iff (PVal.beq a b = true) (PVal.beq_iff a b)

instance : DecidableEq ProtoField := fun a b =>
  decidable_of_iff (ProtoField.beq a b = true) (ProtoField.beqField_iff a b)

instance {ε α : Type} [DecidableEq ε] [DecidableEq α] : DecidableEq (Except ε α) :=
  fun a b =>
    match a, b with
    | .ok x, .ok y =>
      if h : x = y then .isTrue (by rw [h]) else .isFalse (by simp [h])
    | .error x, .error y =>
      if h : x = y then .isTrue (by rw [h]) else .isFalse (by simp [h])
    | .ok _, .error _ => .isFalse (by simp)
    | .error _, .ok _ => .isFalse (by simp)

/-! ## Varint lemmas -/

theorem lor_shift (a b n : Nat) (h : a < 2 ^ n) : a ||| (b <<< n) = a + b * 2 ^ n := by
  rw [Nat.shiftLeft_eq]
  calc a ||| b * 2 ^ n = b * 2 ^ n ||| a := Nat.lor_comm _ _
  _ = 2 ^ n * b ||| a := by rw [Nat.mul_comm]
  _ = 2 ^ n * b + a := (Nat.mul_add_lt_is_or h b).symm
  _ = a + b * 2 ^ n := by ring

theorem and127 (a : Nat) : a &&& 127 = a % 128 := by
  have h := Nat.and_pow_two_sub_one_eq_mod a 7
  norm_num at h
  exact h

theorem shift7 (a : Nat) : a >>> 7 = a / 128 := by
  rw [Nat.shiftRight_eq_div_pow]

theorem lor128 (a : Nat) (h : a < 128) : a ||| 128 = a + 128 := by
  have h2 : a < 2 ^ 7 := lt_of_lt_of_le h (by norm_num)
  have := lor_shift a 1 7 h2
  norm_num at this
  convert this using 2

theorem wvLoopF_zero (f : Nat) : wvLoopF f 0 = [] := by
  cases f <;> rfl

theorem wvLoopF_congr : ∀ v f1 f2, v ≤ f1 → v ≤ f2 → wvLoopF f1 v = wvLoopF f2 v := by
  intro v
  induction v using Nat.strong_induction_on with
  | _ v ih =>
    intro f1 f2 h1 h2
    match v, f1, f2 with
    | 0, f1, f2 => rw [wvLoopF_zero, wvLoopF_zero]
    | w + 1, g1 + 1, g2 + 1 =>
      simp only [wvLoopF]
      have hlt : (w + 1) >>> 7 < w + 1 := by
        rw [shift7]; omega
      have hle1 : (w + 1) >>> 7 ≤ g1 := by
        rw [shift7]; omega
      have hle2 : (w + 1) >>> 7 ≤ g2 := by
        rw [shift7]; omega
      rw [ih _ hlt g1 g2 hle1 hle2]

theorem wvLoop_eq (v : Nat) (h : 1 ≤ v) :
    wvLoop v =
      (if v / 128 > 0 then v % 128 + 128 else v % 128) :: wvLoop (v / 128) := by
  match v, h with
  | w + 1, _ =>
    show wvLoopF (w + 1) (w + 1) = _
    rw [wvLoopF]
    have hd : (w + 1) >>> 7 = (w + 1) / 128 := shift7 (w + 1)
    have hm : (w + 1) &&& 127 = (w + 1) % 128 := and127 (w + 1)
    have hor : (w + 1) % 128 ||| 128 = (w + 1) % 128 + 128 :=
      lor128 _ (Nat.mod_lt _ (by norm_num))
    have hcongr : wvLoopF w ((w + 1) / 128) = wvLoop ((w + 1) / 128) := by
      exact wvLoopF_congr _ _ _ (by omega) (le_refl _)
    rw [hd, hm, hor, hcongr]

theorem wvLoop_zero : wvLoop 0 = [] := rfl

theorem wvLoop_length_le : ∀ k v, v < 128 ^ k → (wvLoop v).length ≤ k := by
  intro k
  induction k with
  | zero => intro v hv; interval_cases v; simp [wvLoop_zero]
  | succ k ih =>
    intro v hv
    rcases Nat.eq_zero_or_pos v with h0 | h1
    · subst h0; simp [wvLoop_zero]
    · rw [wvLoop_eq v h1]
      have : v / 128 < 128 ^ k := by
        rw [Nat.div_lt_iff_lt_mul (by norm_num)]
        calc v < 128 ^ (k + 1) := hv
        _ = 128 ^ k * 128 := by ring
      simpa using ih (v / 128) this

theorem readVarintAux_wvLoop :
    ∀ v acc n rest, 1 ≤ v → acc < 2 ^ (7 * n) → n + (wvLoop v).length ≤ 11 →
      readVarintAux (wvLoop v ++ rest) acc n = .ok (acc + v * 2 ^ (7 * n), rest) := by
  intro v
  induction v using Nat.strong_induction_on with
  | _ v ih =>
    intro acc n rest hv hacc hlen
    rw [wvLoop_eq v hv] at hlen ⊢
    simp only [List.length_cons] at hlen
    rcases Nat.eq_zero_or_pos (v / 128) with h0 | h1
    · -- final byte: v < 128
      have hv128 : v < 128 := by omega
      have hvmod : v % 128 = v := Nat.mod_eq_of_lt hv128
      rw [if_neg (by omega : ¬v / 128 > 0), h0, wvLoop_zero]
      show readVarintAux (v % 128 :: rest) acc n = _
      rw [readVarintAux]
      have hmask : v % 128 &&& 127 = v := by rw [and127, hvmod, hvmod]
      have hb : v % 128 < 0x80 := by omega
      simp only [hmask, if_pos hb]
      rw [lor_shift _ _ _ hacc]
    · -- continuation byte
      have hbyte : (v % 128 + 128) &&& 127 = v % 128 := by
        rw [and127]; omega
      have hlen1 : (wvLoop (v / 128)).length ≥ 1 := by
        rw [wvLoop_eq _ h1]; simp
      rw [if_pos h1]
      show readVarintAux ((v % 128 + 128) :: (wvLoop (v / 128) ++ rest)) acc n = _
      rw [readVarintAux]
      simp only [hbyte]
      have hnb : ¬(v % 128 + 128 < 0x80) := by omega
      rw [if_neg hnb]
      have hn10 : ¬(n + 1 > 10) := by omega
      rw [if_neg hn10]
      have hacc2 : acc ||| (v % 128) <<< (7 * n) = acc + v % 128 * 2 ^ (7 * n) :=
        lor_shift _ _ _ hacc
      rw [hacc2]
      have hP : 2 ^ (7 * (n + 1)) = 128 * 2 ^ (7 * n) := by
        rw [Nat.mul_succ, Nat.pow_add]
        ring
      have hacc3 : acc + v % 128 * 2 ^ (7 * n) < 2 ^ (7 * (n + 1)) := by
        have h127 : v % 128 ≤ 127 := by omega
        have hmul : v % 128 * 2 ^ (7 * n) ≤ 127 * 2 ^ (7 * n) :=
          Nat.mul_le_mul_right _ h127
        rw [hP]
        omega
      have hrec := ih (v / 128) (by omega) (acc + v % 128 * 2 ^ (7 * n)) (n + 1) rest h1
        hacc3 (by omega)
      rw [hrec]
      congr 2
      have hsplit : v = v % 128 + 128 * (v / 128) := by omega
      rw [hP]
      calc acc + v % 128 * 2 ^ (7 * n) + v / 128 * (128 * 2 ^ (7 * n))
          = acc + (v % 128 + 128 * (v / 128)) * 2 ^ (7 * n) := by ring
      _ = acc + v * 2 ^ (7 * n) := by rw [← hsplit]

theorem wvN_zero : wvN 0 = [0] := rfl

theorem wvN_pos (v : Nat) (h : 1 ≤ v) : wvN v = wvLoop v := by
  unfold wvN writeVarint
  rw [if_neg (by exact_mod_cast Nat.pos_iff_ne_zero.mp h)]
  simp

theorem varintShape_ne_nil {c : List Nat} (h : varintShape c = true) : c ≠ [] := by
  intro h0
  subst h0
  simp [varintShape] at h

theorem varintShape_cons {b : Nat} {t : List Nat} (ht : t ≠ []) :
    varintShape (b :: t) = (decide (128 ≤ b) && varintShape t) := by
  match t, ht with
  | x :: t2, _ => rfl

theorem readVarintAux_ok :
    ∀ l acc n v r, acc < 2 ^ (7 * n) → readVarintAux l acc n = .ok (v, r) →
      ∃ c, l = c ++ r ∧ varintShape c = true ∧ v = acc + varintVal c * 2 ^ (7 * n) := by
  intro l
  induction l with
  | nil => intro acc n v r _ h; simp [readVarintAux] at h
  | cons b rest ih =>
    intro acc n v r hacc h
    rw [readVarintAux] at h
    simp only [and127] at h
    rw [lor_shift _ _ _ hacc] at h
    by_cases hb : b < 0x80
    · rw [if_pos hb] at h
      simp only [Except.ok.injEq, Prod.mk.injEq] at h
      obtain ⟨hv, hr⟩ := h
      refine ⟨[b], by simp [hr], ?_, ?_⟩
      · simp [varintShape]
        omega
      · simp only [varintVal, Nat.mul_zero, Nat.add_zero]
        omega
    · rw [if_neg hb] at h
      by_cases h10 : n + 1 > 10
      · rw [if_pos h10] at h
        cases h
      · rw [if_neg h10] at h
        have hacc2 : acc + b % 128 * 2 ^ (7 * n) < 2 ^ (7 * (n + 1)) := by
          have h127 : b % 128 ≤ 127 := by omega
          have hmul : b % 128 * 2 ^ (7 * n) ≤ 127 * 2 ^ (7 * n) :=
            Nat.mul_le_mul_right _ h127
          have hP : 2 ^ (7 * (n + 1)) = 128 * 2 ^ (7 * n) := by
            rw [Nat.mul_succ, Nat.pow_add]; ring
          rw [hP]; omega
        obtain ⟨c', hsplit, hshape, hval⟩ := ih _ _ _ _ hacc2 h
        refine ⟨b :: c', by simp [hsplit], ?_, ?_⟩
        · rw [varintShape_cons (varintShape_ne_nil hshape)]
          simp [hshape]
          omega
        · have hP : 2 ^ (7 * (n + 1)) = 128 * 2 ^ (7 * n) := by
            rw [Nat.mul_succ, Nat.pow_add]; ring
          rw [hval, hP]
          show _ = acc + varintVal (b :: c') * 2 ^ (7 * n)
          rw [varintVal]
          ring

theorem readVarint_ok {l : List Nat} {v : Nat} {r : List Nat}
    (h : readVarint l = .ok (v, r)) :
    ∃ c, l = c ++ r ∧ varintShape c = true ∧ v = varintVal c := by
  obtain ⟨c, h1, h2, h3⟩ := readVarintAux_ok l 0 0 v r (by norm_num) h
  exact ⟨c, h1, h2, by simpa using h3⟩

theorem varint_SubEnc :
    ∀ c, varintShape c = true → (∀ b ∈ c, b < 256) → SubEnc (wvN (varintVal c)) c := by
  intro c
  induction c with
  | nil => intro hs; simp [varintShape] at hs
  | cons b t ih =>
    intro hs hb
    rcases List.eq_nil_or_concat t with ht | _
    case inl =>
      -- single final byte
      subst ht
      have hb128 : b < 128 := by
        simpa [varintShape] using hs
      have hval : varintVal [b] = b := by
        simp only [varintVal]
        omega
      rw [hval]
      rcases Nat.eq_zero_or_pos b with h0 | h1
      · subst h0
        exact ⟨by simp [wvN_zero], fun _ => by simp [wvN_zero]⟩
      · have heq : wvN b = [b] := by
          rw [wvN_pos b h1, wvLoop_eq b h1]
          have hd : b / 128 = 0 := by omega
          rw [hd, wvLoop_zero, if_neg (by omega)]
          have hm : b % 128 = b := Nat.mod_eq_of_lt hb128
          rw [hm]
        rw [heq]
        exact ⟨le_refl _, fun _ => rfl⟩
    case inr =>
      have ht : t ≠ [] := by
        rcases t with _ | ⟨x, t2⟩
        · rename_i hcat
          obtain ⟨l2, a2, h2⟩ := hcat
          exact absurd h2.symm (List.concat_ne_nil a2 l2)
        · simp
      have htlen : 1 ≤ t.length := by
        rcases t with _ | _
        · simp at ht
        · simp
      rw [varintShape_cons ht] at hs
      have hb1 : 128 ≤ b := by
        have := hs
        simp at this
        exact this.1
      have hst : varintShape t = true := by
        have := hs
        simp at this
        exact this.2
      have hb256 : b < 256 := hb b (by simp)
      have hbt : ∀ x ∈ t, x < 256 := fun x hx => hb x (by simp [hx])
      have ihs := ih hst hbt
      set W := varintVal t with hW
      have hval : varintVal (b :: t) = b % 128 + 128 * W := by
        simp [varintVal]
      rw [hval]
      rcases Nat.eq_zero_or_pos (b % 128 + 128 * W) with h0 | h1
      · -- the whole value is zero
        rw [h0, wvN_zero]
        constructor
        · show 1 ≤ t.length + 1
          omega
        · intro hl
          exfalso
          have hl2 : (1 : Nat) = t.length + 1 := hl
          omega
      · rw [wvN_pos _ h1, wvLoop_eq _ h1]
        have hdiv : (b % 128 + 128 * W) / 128 = W := by
          omega
        have hmod : (b % 128 + 128 * W) % 128 = b % 128 := by
          omega
        rw [hdiv, hmod]
        rcases Nat.eq_zero_or_pos W with hW0 | hW1
        · -- tail value zero: emitted encoding is a single byte
          rw [hW0, wvLoop_zero, if_neg (by omega)]
          constructor
          · show 1 ≤ t.length + 1
            omega
          · intro hl
            exfalso
            have hl2 : (1 : Nat) = t.length + 1 := hl
            omega
        · rw [if_pos (by omega)]
          have hwt : wvLoop W = wvN W := (wvN_pos W hW1).symm
          rw [hwt]
          constructor
          · simp only [List.length_cons]
            have := ihs.1
            omega
          · intro hl
            simp only [List.length_cons] at hl
            have hlen : (wvN W).length = t.length := by omega
            rw [ihs.2 hlen]
            have hhead : b % 128 + 128 = b := by omega
            rw [hhead]

theorem readVarintAux_allCont :
    ∀ l acc n, (∀ b ∈ l, 128 ≤ b) → n + l.length ≤ 10 →
      readVarintAux l acc n = .error .truncated := by
  intro l
  induction l with
  | nil => intro acc n _ _; rfl
  | cons b rest ih =>
    intro acc n hb hn
    rw [readVarintAux]
    have h1 : ¬(b < 0x80) := by
      have := hb b (by simp)
      omega
    rw [if_neg h1]
    have h2 : ¬(n + 1 > 10) := by
      simp at hn
      omega
    rw [if_neg h2]
    apply ih
    · intro x hx; exact hb x (by simp [hx])
    · simp at hn ⊢
      omega

theorem readVarintAux_tooLong :
    ∀ pre acc n l, pre ≠ [] → n + pre.length = 11 → (∀ b ∈ pre, 128 ≤ b) →
      readVarintAux (pre ++ l) acc n = .error .varintTooLong := by
  intro pre
  induction pre with
  | nil => intro _ _ _ h; simp at h
  | cons b rest ih =>
    intro acc n l _ hn hb
    rw [List.cons_append, readVarintAux]
    have h1 : ¬(b < 0x80) := by
      have := hb b (by simp)
      omega
    rw [if_neg h1]
    rcases List.eq_nil_or_concat rest with hr | _
    · subst hr
      simp at hn
      rw [if_pos (by omega)]
    · have hr : rest ≠ [] := by
        rename_i hcat
        obtain ⟨l2, a2, h2⟩ := hcat
        rw [h2]
        exact List.concat_ne_nil a2 l2
      have hrl : 1 ≤ rest.length := by
        rcases rest with _ | _
        · simp at hr
        · simp
      simp only [List.length_cons] at hn
      rw [if_neg (by omega)]
      exact ih _ (n + 1) l hr (by omega) (fun x hx => hb x (by simp [hx]))

theorem readVarint_wvN (v : Nat) (rest : List Nat) (h : v < 2 ^ 77) :
    readVarint (wvN v ++ rest) = .ok (v, rest) := by
  rcases Nat.eq_zero_or_pos v with h0 | h1
  · subst h0
    simp [wvN_zero, readVarint, readVarintAux]
  · rw [wvN_pos v h1]
    unfold readVarint
    have hlen : (wvLoop v).length ≤ 11 := by
      apply wvLoop_length_le
      calc v < 2 ^ 77 := h
      _ = 128 ^ 11 := by norm_num
    have := readVarintAux_wvLoop v 0 0 rest h1 (by norm_num) (by omega)
    simpa using this

/-! ## Reader decomposition lemmas -/

theorem readN_ok {n : Nat} {l c r : List Nat} (h : readN n l = .ok (c, r)) :
    l = c ++ r ∧ c.length = n := by
  unfold readN at h
  split at h
  · simp only [Except.ok.injEq, Prod.mk.injEq] at h
    obtain ⟨hc, hr⟩ := h
    subst hc; subst hr
    constructor
    · exact (List.take_append_drop n l).symm
    · simp
      omega
  · cases h

theorem readVarint_consumes {l : List Nat} {v : Nat} {r : List Nat}
    (h : readVarint l = .ok (v, r)) : r.length < l.length := by
  obtain ⟨c, hc, hs, _⟩ := readVarint_ok h
  have hne := varintShape_ne_nil hs
  subst hc
  rcases c with _ | ⟨x, xs⟩
  · simp at hne
  · simp only [List.length_append, List.length_cons]
    omega

theorem skipField67 {f wt : Nat} {l : List Nat} (h : wt = 6 ∨ wt = 7) :
    skipField f wt l = .error .skipUnknownType := by
  rcases h with h | h <;> subst h <;> simp [skipField]

theorem and7_lt (key : Nat) : key &&& 7 < 8 := by
  have := Nat.and_le_right (n := key) (m := 7)
  omega

/-! ## Parser structural lemmas -/

theorem parseFields_rem :
    ∀ fuel l g fs r fd, parseFields fuel l g = .ok (fs, r, fd) → r.length ≤ l.length := by
  intro fuel
  induction fuel with
  | zero => intro l g fs r fd h; cases h
  | succ fuel ih =>
    intro l g fs r fd h
    rcases l with _ | ⟨b, rest⟩
    · rw [parseFields] at h
      simp only [Except.ok.injEq, Prod.mk.injEq] at h
      obtain ⟨_, hr, _⟩ := h
      subst hr
      simp
    · rw [parseFields] at h
      rcases hrv : readVarint (b :: rest) with _ | ⟨key, r1⟩
      · rw [hrv] at h; cases h
      · rw [hrv] at h
        dsimp only at h
        have hr1 : r1.length < (b :: rest).length := readVarint_consumes hrv
        by_cases hidx : key >>> 3 = 0
        · rw [if_pos hidx] at h; cases h
        · rw [if_neg hidx] at h
          by_cases hwt6 : 6 ≤ key &&& 7
          · rw [if_pos hwt6] at h
            have h67 : key &&& 7 = 6 ∨ key &&& 7 = 7 := by
              have := and7_lt key
              omega
            rw [skipField67 h67] at h
            cases h
          · rw [if_neg hwt6] at h
            by_cases hwt4 : key &&& 7 = 4
            · rw [if_pos hwt4] at h
              by_cases hg : g = some (key >>> 3)
              · rw [if_pos hg] at h
                simp only [Except.ok.injEq, Prod.mk.injEq] at h
                obtain ⟨_, hr, _⟩ := h
                subst hr
                omega
              · rw [if_neg hg] at h; cases h
            · rw [if_neg hwt4] at h
              by_cases hwt3 : key &&& 7 = 3
              · rw [if_pos hwt3] at h
                rcases hsub : parseFields fuel r1 (some (key >>> 3)) with _ | ⟨sub, r2, fe⟩
                · rw [hsub] at h; cases h
                · rw [hsub] at h
                  dsimp only at h
                  have hr2 : r2.length ≤ r1.length := ih _ _ _ _ _ hsub
                  rcases fe with _ | _
                  · simp at h
                  · rw [if_pos rfl] at h
                    rcases hcont : parseFields fuel r2 g with _ | ⟨fs3, r3, fd3⟩
                    · rw [hcont] at h; cases h
                    · rw [hcont] at h
                      dsimp only at h
                      have hr3 : r3.length ≤ r2.length := ih _ _ _ _ _ hcont
                      simp only [Except.ok.injEq, Prod.mk.injEq] at h
                      obtain ⟨_, hr, _⟩ := h
                      subst hr
                      omega
              · rw [if_neg hwt3] at h
                have hwt : key &&& 7 = 0 ∨ key &&& 7 = 1 ∨ key &&& 7 = 2 ∨ key &&& 7 = 5 := by
                  have := and7_lt key
                  omega
                -- name the scalar read in each wire-type case, then finish uniformly
                have main : ∀ v r2, r2.length ≤ r1.length →
                    ((match parseFields fuel r2 g with
                      | Except.error e => Except.error e
                      | Except.ok (fs3, r3, fd3) =>
                        Except.ok (ProtoField.mk (key >>> 3) (key &&& 7) v :: fs3, r3, fd3)) =
                      Except.ok (fs, r, fd)) →
                    r.length ≤ (b :: rest).length := by
                  intro v r2 hr2 hm
                  rcases hcont : parseFields fuel r2 g with _ | ⟨fs3, r3, fd3⟩
                  · rw [hcont] at hm; cases hm
                  · rw [hcont] at hm
                    have hr3 : r3.length ≤ r2.length := ih _ _ _ _ _ hcont
                    simp only [Except.ok.injEq, Prod.mk.injEq] at hm
                    obtain ⟨_, hr, _⟩ := hm
                    subst hr
                    omega
                rcases hwt with hw | hw | hw | hw
                · rw [if_pos hw] at h
                  rcases hx : readVarint r1 with _ | ⟨n, r2⟩
                  · rw [hx] at h; cases h
                  · rw [hx] at h
                    dsimp only [Except.map] at h
                    exact main _ _ (le_of_lt (readVarint_consumes hx)) h
                · rw [if_neg (by omega), if_pos hw] at h
                  rcases hx : readInt64 r1 with _ | ⟨n, r2⟩
                  · rw [hx] at h; cases h
                  · rw [hx] at h
                    dsimp only [Except.map] at h
                    have : r2.length ≤ r1.length := by
                      unfold readInt64 at hx
                      rcases hy : readN 8 r1 with _ | ⟨q1, q2⟩ <;> rw [hy] at hx
                      · cases hx
                      · simp only [Except.map, Except.ok.injEq, Prod.mk.injEq] at hx
                        obtain ⟨_, hq⟩ := hx
                        subst hq
                        obtain ⟨hsp, _⟩ := readN_ok hy
                        subst hsp
                        simp
                    exact main _ _ this h
                · rw [if_neg (by omega), if_neg (by omega), if_pos hw] at h
                  rcases hx : readString r1 with _ | ⟨s, r2⟩
                  · rw [hx] at h; cases h
                  · rw [hx] at h
                    dsimp only [Except.map] at h
                    have : r2.length ≤ r1.length := by
                      unfold readString at hx
                      rcases hy : readVarint r1 with _ | ⟨len, q2⟩ <;> rw [hy] at hx
                      · cases hx
                      · simp only [Except.bind] at hx
                        obtain ⟨hsp, _⟩ := readN_ok hx
                        have hq2 : q2.length < r1.length := readVarint_consumes hy
                        subst hsp
                        simp at hq2 ⊢
                        omega
                    exact main _ _ this h
                · rw [if_neg (by omega), if_neg (by omega), if_neg (by omega)] at h
                  rcases hx : readInt32 r1 with _ | ⟨n, r2⟩
                  · rw [hx] at h; cases h
                  · rw [hx] at h
                    dsimp only [Except.map] at h
                    have : r2.length ≤ r1.length := by
                      unfold readInt32 at hx
                      rcases hy : readN 4 r1 with _ | ⟨q1, q2⟩ <;> rw [hy] at hx
                      · cases hx
                      · simp only [Except.map, Except.ok.injEq, Prod.mk.injEq] at hx
                        obtain ⟨_, hq⟩ := hx
                        subst hq
                        obtain ⟨hsp, _⟩ := readN_ok hy
                        subst hsp
                        simp
                    exact main _ _ this h


theorem readInt64_len {r1 : List Nat} {n : Nat} {r2 : List Nat}
    (h : readInt64 r1 = .ok (n, r2)) : r2.length + 8 = r1.length := by
  unfold readInt64 at h
  rcases hy : readN 8 r1 with _ | ⟨c1, c2⟩ <;> rw [hy] at h
  · cases h
  · simp only [Except.map, Except.ok.injEq, Prod.mk.injEq] at h
    obtain ⟨_, hq⟩ := h
    subst hq
    obtain ⟨hsp, hln⟩ := readN_ok hy
    subst hsp
    simp [hln]
    omega

theorem readInt32_len {r1 : List Nat} {n : Nat} {r2 : List Nat}
    (h : readInt32 r1 = .ok (n, r2)) : r2.length + 4 = r1.length := by
  unfold readInt32 at h
  rcases hy : readN 4 r1 with _ | ⟨c1, c2⟩ <;> rw [hy] at h
  · cases h
  · simp only [Except.map, Except.ok.injEq, Prod.mk.injEq] at h
    obtain ⟨_, hq⟩ := h
    subst hq
    obtain ⟨hsp, hln⟩ := readN_ok hy
    subst hsp
    simp [hln]
    omega

theorem readString_len {r1 s r2 : List Nat}
    (h : readString r1 = .ok (s, r2)) : r2.length < r1.length := by
  unfold readString at h
  rcases hy : readVarint r1 with _ | ⟨len, c2⟩ <;> rw [hy] at h
  · cases h
  · simp only [Except.bind] at h
    obtain ⟨hsp, _⟩ := readN_ok h
    have hc2 : c2.length < r1.length := readVarint_consumes hy
    subst hsp
    simp at hc2 ⊢
    omega

theorem scalarValue_len (wt : Nat) (r1 : List Nat) (v : PVal) (r2 : List Nat)
    (h : (if wt = 0 then (readVarint r1).map (fun p => (PVal.int p.1, p.2))
          else if wt = 1 then (readInt64 r1).map (fun p => (PVal.int p.1, p.2))
          else if wt = 2 then (readString r1).map (fun p => (PVal.bytes p.1, p.2))
          else (readInt32 r1).map (fun p => (PVal.int p.1, p.2))) = .ok (v, r2)) :
    r2.length ≤ r1.length := by
  split at h
  · rcases hx : readVarint r1 with _ | ⟨n, q2⟩ <;> rw [hx] at h
    · cases h
    · simp only [Except.map, Except.ok.injEq, Prod.mk.injEq] at h
      obtain ⟨_, hq⟩ := h
      subst hq
      exact le_of_lt (readVarint_consumes hx)
  · split at h
    · rcases hx : readInt64 r1 with _ | ⟨n, q2⟩ <;> rw [hx] at h
      · cases h
      · simp only [Except.map, Except.ok.injEq, Prod.mk.injEq] at h
        obtain ⟨_, hq⟩ := h
        subst hq
        have := readInt64_len hx
        omega
    · split at h
      · rcases hx : readString r1 with _ | ⟨str, q2⟩ <;> rw [hx] at h
        · cases h
        · simp only [Except.map, Except.ok.injEq, Prod.mk.injEq] at h
          obtain ⟨_, hq⟩ := h
          subst hq
          exact le_of_lt (readString_len hx)
      · rcases hx : readInt32 r1 with _ | ⟨n, q2⟩ <;> rw [hx] at h
        · cases h
        · simp only [Except.map, Except.ok.injEq, Prod.mk.injEq] at h
          obtain ⟨_, hq⟩ := h
          subst hq
          have := readInt32_len hx
          omega

theorem parseFields_fuel :
    ∀ N l g f1 f2, l.length ≤ N → l.length < f1 → l.length < f2 →
      parseFields f1 l g = parseFields f2 l g := by
  intro N
  induction N with
  | zero =>
    intro l g f1 f2 hN h1 h2
    have hl : l = [] := List.length_eq_zero.mp (by omega)
    subst hl
    match f1, f2, h1, h2 with
    | a + 1, b + 1, _, _ => rw [parseFields, parseFields]
  | succ N ih =>
    intro l g f1 f2 hN h1 h2
    match f1, f2, h1, h2 with
    | a + 1, b + 1, ha, hb =>
      rcases l with _ | ⟨x, xs⟩
      · rw [parseFields, parseFields]
      · rw [parseFields, parseFields]
        rcases hrv : readVarint (x :: xs) with _ | ⟨key, r1⟩
        · rfl
        · dsimp only
          have hr1 : r1.length < (x :: xs).length := readVarint_consumes hrv
          have hrec : ∀ r2 : List Nat, r2.length ≤ r1.length → ∀ g2,
              parseFields a r2 g2 = parseFields b r2 g2 := by
            intro r2 hr2 g2
            apply ih
            · simp only [List.length_cons] at hN hr1
              omega
            · simp only [List.length_cons] at ha hr1
              omega
            · simp only [List.length_cons] at hb hr1
              omega
          split_ifs with hidx hwt6 hwt4 hg hwt3 hw0 hw1 hw2
          · rfl
          · have h67 : key &&& 7 = 6 ∨ key &&& 7 = 7 := by
              have := and7_lt key
              omega
            rw [skipField67 h67]
          · rfl
          · rfl
          · -- group
            rw [hrec r1 (le_refl _) (some (key >>> 3))]
            rcases hs2 : parseFields b r1 (some (key >>> 3)) with _ | ⟨sub, r2, fe⟩
            · rfl
            · dsimp only
              have hr2 : r2.length ≤ r1.length := parseFields_rem _ _ _ _ _ _ hs2
              rw [hrec r2 hr2 g]
          · -- varint value
            rcases hx : readVarint r1 with _ | ⟨n, r2⟩
            · rfl
            · dsimp only [Except.map]
              rw [hrec r2 (le_of_lt (readVarint_consumes hx)) g]
          · -- fixed64 value
            rcases hx : readInt64 r1 with _ | ⟨n, r2⟩
            · rfl
            · dsimp only [Except.map]
              have := readInt64_len hx
              rw [hrec r2 (by omega) g]
          · -- string value
            rcases hx : readString r1 with _ | ⟨str, r2⟩
            · rfl
            · dsimp only [Except.map]
              rw [hrec r2 (le_of_lt (readString_len hx)) g]
          · -- fixed32 value
            rcases hx : readInt32 r1 with _ | ⟨n, r2⟩
            · rfl
            · dsimp only [Except.map]
              have := readInt32_len hx
              rw [hrec r2 (by omega) g]

/-! ## Serialize-then-parse helpers -/

theorem and7_mod (a : Nat) : a &&& 7 = a % 8 := by
  have h := Nat.and_pow_two_sub_one_eq_mod a 3
  norm_num at h
  exact h

theorem shift3 (a : Nat) : a >>> 3 = a / 8 := by
  rw [Nat.shiftRight_eq_div_pow]

theorem keyVal (idx t : Nat) (h : t < 8) : (idx <<< 3) ||| (t &&& 7) = 8 * idx + t := by
  have ht : t &&& 7 = t := by
    rw [and7_mod]
    omega
  rw [ht]
  have h8 : t < 2 ^ 3 := by omega
  have := lor_shift t idx 3 h8
  rw [Nat.lor_comm] at this
  rw [this]
  ring

theorem wvN_ne_nil (v : Nat) : wvN v ≠ [] := by
  rcases Nat.eq_zero_or_pos v with h0 | h1
  · subst h0
    rw [wvN_zero]
    simp
  · rw [wvN_pos v h1, wvLoop_eq v h1]
    simp

theorem writeVarint_nonneg (n : Int) (h : 0 ≤ n) : writeVarint n = wvN n.toNat := by
  unfold wvN writeVarint
  rcases eq_or_ne n 0 with h0 | h0
  · subst h0
    norm_num
  · rw [if_neg h0, if_neg (by omega : ¬(n.toNat : Int) = 0)]
    congr 1

theorem readN_exact (c r : List Nat) (n : Nat) (h : c.length = n) :
    readN n (c ++ r) = .ok (c, r) := by
  subst h
  unfold readN
  rw [if_pos (by simp)]
  rw [List.take_left, List.drop_left]

theorem toLE_length (k v : Nat) : (toLE k v).length = k := by
  induction k generalizing v with
  | zero => rfl
  | succ k ih => simp [toLE, ih]

theorem fromLE_toLE (k v : Nat) (h : v < 256 ^ k) : fromLE (toLE k v) = v := by
  induction k generalizing v with
  | zero =>
    simp at h
    simp [toLE, fromLE, h]
  | succ k ih =>
    rw [toLE, fromLE]
    have hd : v / 256 < 256 ^ k := by
      rw [Nat.div_lt_iff_lt_mul (by norm_num)]
      calc v < 256 ^ (k + 1) := h
      _ = 256 ^ k * 256 := by ring
    rw [ih (v / 256) hd]
    omega

theorem parse_endTag (idx : Nat) (X : List Nat) (fuel : Nat)
    (hidx : 1 ≤ idx) (hkey : 8 * idx + 4 < 2 ^ 77) (hfuel : 1 ≤ fuel) :
    parseFields fuel (wvN (8 * idx + 4) ++ X) (some idx) = .ok ([], X, true) := by
  match fuel, hfuel with
  | F + 1, _ =>
    have hrd : readVarint (wvN (8 * idx + 4) ++ X) = .ok (8 * idx + 4, X) :=
      readVarint_wvN _ _ hkey
    rcases hw : wvN (8 * idx + 4) with _ | ⟨y, ys⟩
    · exact absurd hw (wvN_ne_nil _)
    · rw [hw] at hrd
      simp only [List.cons_append] at hrd ⊢
      rw [parseFields]
      rw [hrd]
      dsimp only
      have hi : (8 * idx + 4) >>> 3 = idx := by
        rw [shift3]
        omega
      have hw7 : (8 * idx + 4) &&& 7 = 4 := by
        rw [and7_mod]
        omega
      rw [hi, hw7]
      rw [if_neg (by omega), if_neg (by omega), if_pos rfl, if_pos rfl]

theorem serFields_cons_inv {f : ProtoField} {fs : List ProtoField} {C : List Nat}
    (h : serFields (f :: fs) = .ok C) :
    ∃ c cs, serField f = .ok c ∧ serFields fs = .ok cs ∧ C = c ++ cs := by
  rw [serFields] at h
  rcases hf : serField f with _ | c <;> rw [hf] at h
  · cases h
  · rcases hfs : serFields fs with _ | cs <;> rw [hfs] at h
    · cases h
    · have h2 : Except.ok (ε := PErr) (c ++ cs) = .ok C := h
      simp only [Except.ok.injEq] at h2
      exact ⟨c, cs, rfl, rfl, h2.symm⟩

theorem keyVal2 (idx t : Nat) (h : t < 8) : (idx <<< 3) ||| t = 8 * idx + t := by
  have ht : t &&& 7 = t := by
    rw [and7_mod]
    omega
  have := keyVal idx t h
  rw [ht] at this
  exact this

theorem serField_varint (idx : Nat) (n : Int) :
    serField (.mk idx 0 (.int n)) = .ok (wvN (8 * idx) ++ writeVarint n) := by
  rw [serField]
  rw [if_pos rfl]
  have hk : (idx <<< 3) ||| (0 &&& 7) = 8 * idx := by
    have := keyVal idx 0 (by omega)
    omega
  rw [hk]
  rfl

theorem serField_i64 (idx : Nat) (n : Int) (h0 : 0 ≤ n) (h1 : n < 2 ^ 64) :
    serField (.mk idx 1 (.int n)) = .ok (wvN (8 * idx + 1) ++ toLE 8 n.toNat) := by
  rw [serField]
  rw [if_neg (by omega), if_pos rfl]
  have hk : (idx <<< 3) ||| (1 &&& 7) = 8 * idx + 1 := keyVal idx 1 (by omega)
  rw [hk]
  unfold writeInt64
  rw [if_pos ⟨h0, h1⟩]
  rfl

theorem serField_str (idx : Nat) (b : List Nat) :
    serField (.mk idx 2 (.bytes b)) = .ok (wvN (8 * idx + 2) ++ (wvN b.length ++ b)) := by
  rw [serField]
  rw [if_neg (by omega), if_neg (by omega), if_pos rfl]
  have hk : (idx <<< 3) ||| (2 &&& 7) = 8 * idx + 2 := keyVal idx 2 (by omega)
  rw [hk]
  rfl

theorem serField_i32 (idx : Nat) (n : Int) (h0 : 0 ≤ n) (h1 : n < 2 ^ 32) :
    serField (.mk idx 5 (.int n)) = .ok (wvN (8 * idx + 5) ++ toLE 4 n.toNat) := by
  rw [serField]
  rw [if_neg (by omega), if_neg (by omega), if_neg (by omega), if_pos rfl]
  have hk : (idx <<< 3) ||| (5 &&& 7) = 8 * idx + 5 := keyVal idx 5 (by omega)
  rw [hk]
  unfold writeInt32
  rw [if_pos ⟨h0, h1⟩]
  rfl

theorem serField_group (idx : Nat) (sub : List ProtoField) (csub : List Nat)
    (hsub : serFields sub = .ok csub) :
    serField (.mk idx 3 (.msg sub)) = .ok (wvN (8 * idx + 3) ++ csub ++ wvN (8 * idx + 4)) := by
  rw [serField]
  rw [if_neg (by omega), if_neg (by omega), if_neg (by omega), if_neg (by omega),
    if_pos rfl]
  rw [hsub]
  dsimp only [Except.map]
  have hk : (idx <<< 3) ||| (3 &&& 7) = 8 * idx + 3 := keyVal idx 3 (by omega)
  have hk4 : (idx <<< 3) ||| 4 = 8 * idx + 4 := keyVal2 idx 4 (by omega)
  rw [hk, hk4]
  rfl

theorem wvN_length_pos (v : Nat) : 1 ≤ (wvN v).length := by
  rcases hw : wvN v with _ | ⟨y, ys⟩
  · exact absurd hw (wvN_ne_nil v)
  · simp

theorem readInt64_exact (x : Nat) (r : List Nat) (h : x < 2 ^ 64) :
    readInt64 (toLE 8 x ++ r) = .ok (x, r) := by
  unfold readInt64
  rw [readN_exact _ _ _ (toLE_length 8 x)]
  dsimp only [Except.map]
  rw [fromLE_toLE 8 x (by norm_num at h ⊢; omega)]

theorem readInt32_exact (x : Nat) (r : List Nat) (h : x < 2 ^ 32) :
    readInt32 (toLE 4 x ++ r) = .ok (x, r) := by
  unfold readInt32
  rw [readN_exact _ _ _ (toLE_length 4 x)]
  dsimp only [Except.map]
  rw [fromLE_toLE 4 x (by norm_num at h ⊢; omega)]

theorem readString_exact (b X : List Nat) (h : b.length < 2 ^ 77) :
    readString (wvN b.length ++ (b ++ X)) = .ok (b, X) := by
  unfold readString
  rw [readVarint_wvN b.length (b ++ X) h]
  dsimp only [Except.bind]
  exact readN_exact b X b.length rfl

theorem serField_group_inv {idx : Nat} {sub : List ProtoField} {c : List Nat}
    (h : serField (.mk idx 3 (.msg sub)) = .ok c) :
    ∃ csub, serFields sub = .ok csub ∧
      c = wvN (8 * idx + 3) ++ csub ++ wvN (8 * idx + 4) := by
  rcases hcs : serFields sub with e | csub
  · rw [serField] at h
    rw [if_neg (by omega), if_neg (by omega), if_neg (by omega), if_neg (by omega),
      if_pos rfl] at h
    rw [hcs] at h
    cases h
  · rw [serField_group idx sub csub hcs] at h
    simp only [Except.ok.injEq] at h
    exact ⟨csub, rfl, h.symm⟩

/-- Serialize-then-parse composition: parsing a buffer that starts with
the serialization of a wellformed tree parses exactly those fields and
then continues with the remainder of the buffer. -/
theorem serPar :
    ∀ N fs, sizeOf fs ≤ N → ∀ C, WfFields fs → serFields fs = .ok C →
      ∀ rest g fuel, (C ++ rest).length < fuel →
        parseFields fuel (C ++ rest) g =
          (parseFields (rest.length + 1) rest g).map
            (fun p => (fs ++ p.1, p.2.1, p.2.2)) := by
  intro N
  induction N using Nat.strong_induction_on with
  | _ N ihN =>
    intro fs hsz C hwf hser rest g fuel hfuel
    rcases fs with _ | ⟨f, fs2⟩
    · -- empty tree
      have hC : C = [] := by
        rw [serFields] at hser
        simp only [Except.ok.injEq] at hser
        exact hser.symm
      subst hC
      simp only [List.nil_append] at hfuel ⊢
      rw [parseFields_fuel rest.length rest g fuel (rest.length + 1) (le_refl _) hfuel
        (by omega)]
      rcases hres : parseFields (rest.length + 1) rest g with e | ⟨fs3, r, fd⟩ <;> rfl
    · obtain ⟨c, cs, hserf, hsers, hC⟩ := serFields_cons_inv hser
      subst hC
      rcases hwf with _ | ⟨hwff, hwfs⟩
      have hlt2 : sizeOf fs2 < N := by
        simp only [List.cons.sizeOf_spec] at hsz
        omega
      cases hwff with
      | varint idx n hidx1 hidx2 hn0 hn1 =>
        rw [serField_varint idx n] at hserf
        simp only [Except.ok.injEq] at hserf
        subst hserf
        rcases fuel with _ | F
        · exact absurd hfuel (by omega)
        simp only [List.append_assoc] at hfuel ⊢
        rw [writeVarint_nonneg n hn0] at hfuel ⊢
        have hrd := readVarint_wvN (8 * idx) (wvN n.toNat ++ (cs ++ rest)) (by omega)
        rcases hkb : wvN (8 * idx) with _ | ⟨y, ys⟩
        · exact absurd hkb (wvN_ne_nil _)
        rw [hkb] at hrd
        simp only [List.cons_append] at hrd ⊢
        rw [parseFields, hrd]
        dsimp only
        have hi : (8 * idx) >>> 3 = idx := by rw [shift3]; omega
        have hw7 : (8 * idx) &&& 7 = 0 := by rw [and7_mod]; omega
        rw [hi, hw7]
        rw [if_neg (by omega), if_neg (by omega), if_neg (by omega), if_neg (by omega),
          if_pos rfl]
        rw [readVarint_wvN n.toNat (cs ++ rest) (by omega)]
        dsimp only [Except.map]
        have hfuelc : (cs ++ rest).length < F := by
          simp only [List.length_append, List.length_cons] at hfuel ⊢
          have := wvN_length_pos n.toNat
          omega
        have hcont := ihN (sizeOf fs2) hlt2 fs2 (le_refl _) cs hwfs hsers rest g F hfuelc
        rcases hres : parseFields (rest.length + 1) rest g with e | ⟨fs3, r, fd⟩
        · rw [hres] at hcont
          dsimp only [Except.map] at hcont
          rw [hcont]
        · rw [hres] at hcont
          dsimp only [Except.map] at hcont
          rw [hcont]
          dsimp only [Except.map]
          rw [Int.toNat_of_nonneg hn0]
      | fix64 idx n hidx1 hidx2 hn0 hn1 =>
        rw [serField_i64 idx n hn0 hn1] at hserf
        simp only [Except.ok.injEq] at hserf
        subst hserf
        rcases fuel with _ | F
        · exact absurd hfuel (by omega)
        simp only [List.append_assoc] at hfuel ⊢
        have hrd := readVarint_wvN (8 * idx + 1) (toLE 8 n.toNat ++ (cs ++ rest))
          (by omega)
        rcases hkb : wvN (8 * idx + 1) with _ | ⟨y, ys⟩
        · exact absurd hkb (wvN_ne_nil _)
        rw [hkb] at hrd
        simp only [List.cons_append] at hrd ⊢
        rw [parseFields, hrd]
        dsimp only
        have hi : (8 * idx + 1) >>> 3 = idx := by rw [shift3]; omega
        have hw7 : (8 * idx + 1) &&& 7 = 1 := by rw [and7_mod]; omega
        rw [hi, hw7]
        rw [if_neg (by omega), if_neg (by omega), if_neg (by omega), if_neg (by omega),
          if_neg (by omega), if_pos rfl]
        rw [readInt64_exact n.toNat (cs ++ rest) (by omega)]
        dsimp only [Except.map]
        have hfuelc : (cs ++ rest).length < F := by
          simp only [List.length_append, List.length_cons, toLE_length] at hfuel ⊢
          omega
        have hcont := ihN (sizeOf fs2) hlt2 fs2 (le_refl _) cs hwfs hsers rest g F hfuelc
        rcases hres : parseFields (rest.length + 1) rest g with e | ⟨fs3, r, fd⟩
        · rw [hres] at hcont
          dsimp only [Except.map] at hcont
          rw [hcont]
        · rw [hres] at hcont
          dsimp only [Except.map] at hcont
          rw [hcont]
          dsimp only [Except.map]
          rw [Int.toNat_of_nonneg hn0]
      | str idx bts hidx1 hidx2 hb hlen =>
        rw [serField_str idx bts] at hserf
        simp only [Except.ok.injEq] at hserf
        subst hserf
        rcases fuel with _ | F
        · exact absurd hfuel (by omega)
        simp only [List.append_assoc] at hfuel ⊢
        have hrd := readVarint_wvN (8 * idx + 2)
          (wvN bts.length ++ (bts ++ (cs ++ rest))) (by omega)
        rcases hkb : wvN (8 * idx + 2) with _ | ⟨y, ys⟩
        · exact absurd hkb (wvN_ne_nil _)
        rw [hkb] at hrd
        simp only [List.cons_append] at hrd ⊢
        rw [parseFields, hrd]
        dsimp only
        have hi : (8 * idx + 2) >>> 3 = idx := by rw [shift3]; omega
        have hw7 : (8 * idx + 2) &&& 7 = 2 := by rw [and7_mod]; omega
        rw [hi, hw7]
        rw [if_neg (by omega), if_neg (by omega), if_neg (by omega), if_neg (by omega),
          if_neg (by omega), if_neg (by omega), if_pos rfl]
        rw [readString_exact bts (cs ++ rest) (by omega)]
        dsimp only [Except.map]
        have hfuelc : (cs ++ rest).length < F := by
          simp only [List.length_append, List.length_cons] at hfuel ⊢
          have := wvN_length_pos bts.length
          omega
        have hcont := ihN (sizeOf fs2) hlt2 fs2 (le_refl _) cs hwfs hsers rest g F hfuelc
        rcases hres : parseFields (rest.length + 1) rest g with e | ⟨fs3, r, fd⟩
        · rw [hres] at hcont
          dsimp only [Except.map] at hcont
          rw [hcont]
        · rw [hres] at hcont
          dsimp only [Except.map] at hcont
          rw [hcont]
      | group idx sub hidx1 hidx2 hwsub =>
        obtain ⟨csub, hcsub, hc⟩ := serField_group_inv hserf
        subst hc
        have hltsub : sizeOf sub < N := by
          simp only [List.cons.sizeOf_spec, ProtoField.mk.sizeOf_spec,
            PVal.msg.sizeOf_spec] at hsz
          omega
        rcases fuel with _ | F
        · exact absurd hfuel (by omega)
        simp only [List.append_assoc] at hfuel ⊢
        have hrd := readVarint_wvN (8 * idx + 3)
          (csub ++ (wvN (8 * idx + 4) ++ (cs ++ rest))) (by omega)
        rcases hkb : wvN (8 * idx + 3) with _ | ⟨y, ys⟩
        · exact absurd hkb (wvN_ne_nil _)
        rw [hkb] at hrd
        simp only [List.cons_append] at hrd ⊢
        rw [parseFields, hrd]
        dsimp only
        have hi : (8 * idx + 3) >>> 3 = idx := by rw [shift3]; omega
        have hw7 : (8 * idx + 3) &&& 7 = 3 := by rw [and7_mod]; omega
        rw [hi, hw7]
        rw [if_neg (by omega), if_neg (by omega), if_neg (by omega), if_pos rfl]
        have hfuelsub : (csub ++ (wvN (8 * idx + 4) ++ (cs ++ rest))).length < F := by
          have := wvN_length_pos (8 * idx + 3)
          simp only [List.length_append, List.length_cons] at hfuel ⊢
          omega
        have hsubcall := ihN (sizeOf sub) hltsub sub (le_refl _) csub hwsub hcsub
          (wvN (8 * idx + 4) ++ (cs ++ rest)) (some idx) F hfuelsub
        rw [parse_endTag idx (cs ++ rest) _ hidx1 (by omega) (by omega)] at hsubcall
        dsimp only [Except.map] at hsubcall
        rw [List.append_nil] at hsubcall
        rw [hsubcall]
        dsimp only
        rw [if_pos rfl]
        have hfuelc : (cs ++ rest).length < F := by
          simp only [List.length_append, List.length_cons] at hfuel ⊢
          have := wvN_length_pos (8 * idx + 4)
          omega
        have hcont := ihN (sizeOf fs2) hlt2 fs2 (le_refl _) cs hwfs hsers rest g F hfuelc
        rcases hres : parseFields (rest.length + 1) rest g with e | ⟨fs3, r, fd⟩
        · rw [hres] at hcont
          dsimp only [Except.map] at hcont
          rw [hcont]
          rfl
        · rw [hres] at hcont
          dsimp only [Except.map] at hcont
          rw [hcont]
          rfl
      | fix32 idx n hidx1 hidx2 hn0 hn1 =>
        rw [serField_i32 idx n hn0 hn1] at hserf
        simp only [Except.ok.injEq] at hserf
        subst hserf
        rcases fuel with _ | F
        · exact absurd hfuel (by omega)
        simp only [List.append_assoc] at hfuel ⊢
        have hrd := readVarint_wvN (8 * idx + 5) (toLE 4 n.toNat ++ (cs ++ rest))
          (by omega)
        rcases hkb : wvN (8 * idx + 5) with _ | ⟨y, ys⟩
        · exact absurd hkb (wvN_ne_nil _)
        rw [hkb] at hrd
        simp only [List.cons_append] at hrd ⊢
        rw [parseFields, hrd]
        dsimp only
        have hi : (8 * idx + 5) >>> 3 = idx := by rw [shift3]; omega
        have hw7 : (8 * idx + 5) &&& 7 = 5 := by rw [and7_mod]; omega
        rw [hi, hw7]
        rw [if_neg (by omega), if_neg (by omega), if_neg (by omega), if_neg (by omega),
          if_neg (by omega), if_neg (by omega), if_neg (by omega)]
        rw [readInt32_exact n.toNat (cs ++ rest) (by omega)]
        dsimp only [Except.map]
        have hfuelc : (cs ++ rest).length < F := by
          simp only [List.length_append, List.length_cons, toLE_length] at hfuel ⊢
          omega
        have hcont := ihN (sizeOf fs2) hlt2 fs2 (le_refl _) cs hwfs hsers rest g F hfuelc
        rcases hres : parseFields (rest.length + 1) rest g with e | ⟨fs3, r, fd⟩
        · rw [hres] at hcont
          dsimp only [Except.map] at hcont
          rw [hcont]
        · rw [hres] at hcont
          dsimp only [Except.map] at hcont
          rw [hcont]
          dsimp only [Except.map]
          rw [Int.toNat_of_nonneg hn0]

/-! ## Wellformedness helpers and totality of serialization -/

theorem wfScalar_wfField {f : ProtoField} (h : WfScalarField f) : WfField f := by
  cases h with
  | varint idx n h1 h2 h3 h4 => exact .varint idx n h1 h2 h3 h4
  | fix64 idx n h1 h2 h3 h4 => exact .fix64 idx n h1 h2 h3 h4
  | str idx b h1 h2 h3 h4 => exact .str idx b h1 h2 h3 h4
  | fix32 idx n h1 h2 h3 h4 => exact .fix32 idx n h1 h2 h3 h4

theorem wfScalar_wf : ∀ {fs : List ProtoField}, WfScalarFields fs → WfFields fs := by
  intro fs h
  induction h with
  | nil => exact .nil
  | cons hf _ ih => exact .cons (wfScalar_wfField hf) ih

theorem serFields_total :
    ∀ N fs, sizeOf fs ≤ N → WfFields fs → ∃ C, serFields fs = .ok C := by
  intro N
  induction N using Nat.strong_induction_on with
  | _ N ihN =>
    intro fs hsz hwf
    rcases fs with _ | ⟨f, fs2⟩
    · exact ⟨[], rfl⟩
    · rcases hwf with _ | ⟨hwff, hwfs⟩
      have hlt2 : sizeOf fs2 < N := by
        simp only [List.cons.sizeOf_spec] at hsz
        omega
      obtain ⟨cs, hcs⟩ := ihN (sizeOf fs2) hlt2 fs2 (le_refl _) hwfs
      have hfield : ∃ c, serField f = .ok c := by
        cases hwff with
        | varint idx n hidx1 hidx2 hn0 hn1 => exact ⟨_, serField_varint idx n⟩
        | fix64 idx n hidx1 hidx2 hn0 hn1 => exact ⟨_, serField_i64 idx n hn0 hn1⟩
        | str idx b hidx1 hidx2 hb hlen => exact ⟨_, serField_str idx b⟩
        | group idx sub hidx1 hidx2 hsub =>
          have hszsub : sizeOf sub < N := by
            simp only [List.cons.sizeOf_spec, ProtoField.mk.sizeOf_spec,
              PVal.msg.sizeOf_spec] at hsz
            omega
          obtain ⟨csub, hcsub⟩ := ihN (sizeOf sub) hszsub sub (le_refl _) hsub
          exact ⟨_, serField_group idx sub csub hcsub⟩
        | fix32 idx n hidx1 hidx2 hn0 hn1 => exact ⟨_, serField_i32 idx n hn0 hn1⟩
      obtain ⟨c, hc⟩ := hfield
      refine ⟨c ++ cs, ?_⟩
      rw [serFields, hc, hcs]
      rfl

/-! ## The top-level parse consumes the whole buffer -/

theorem parse_none_all :
    ∀ fuel l fs r fd, parseFields fuel l none = .ok (fs, r, fd) → r = [] ∧ fd = true := by
  intro fuel
  induction fuel with
  | zero => intro l fs r fd h; cases h
  | succ fuel ih =>
    intro l fs r fd h
    rcases l with _ | ⟨b, rest⟩
    · rw [parseFields] at h
      simp only [Except.ok.injEq, Prod.mk.injEq] at h
      obtain ⟨_, hr, hfd⟩ := h
      exact ⟨hr.symm, hfd.symm⟩
    · rw [parseFields] at h
      rcases hrv : readVarint (b :: rest) with _ | ⟨key, r1⟩
      · rw [hrv] at h; cases h
      · rw [hrv] at h
        dsimp only at h
        by_cases hidx : key >>> 3 = 0
        · rw [if_pos hidx] at h; cases h
        · rw [if_neg hidx] at h
          by_cases hwt6 : 6 ≤ key &&& 7
          · rw [if_pos hwt6] at h
            have h67 : key &&& 7 = 6 ∨ key &&& 7 = 7 := by
              have := and7_lt key
              omega
            rw [skipField67 h67] at h
            cases h
          · rw [if_neg hwt6] at h
            by_cases hwt4 : key &&& 7 = 4
            · rw [if_pos hwt4] at h
              have hg : ¬((none : Option Nat) = some (key >>> 3)) := by simp
              rw [if_neg hg] at h
              cases h
            · rw [if_neg hwt4] at h
              by_cases hwt3 : key &&& 7 = 3
              · rw [if_pos hwt3] at h
                rcases hsub : parseFields fuel r1 (some (key >>> 3)) with _ | ⟨sub, r2, fe⟩
                · rw [hsub] at h; cases h
                · rw [hsub] at h
                  dsimp only at h
                  rcases fe with _ | _
                  · simp at h
                  · rw [if_pos rfl] at h
                    rcases hcont : parseFields fuel r2 none with _ | ⟨fs3, r3, fd3⟩
                    · rw [hcont] at h; cases h
                    · rw [hcont] at h
                      dsimp only at h
                      simp only [Except.ok.injEq, Prod.mk.injEq] at h
                      obtain ⟨_, hr, hfd⟩ := h
                      obtain ⟨hr3, hfd3⟩ := ih _ _ _ _ hcont
                      subst hr hfd
                      exact ⟨hr3, hfd3⟩
              · rw [if_neg hwt3] at h
                have main : ∀ (v : PVal) (r2 : List Nat),
                    ((match parseFields fuel r2 none with
                      | Except.error e => Except.error e
                      | Except.ok (fs3, r3, fd3) =>
                        Except.ok (ProtoField.mk (key >>> 3) (key &&& 7) v :: fs3, r3, fd3)) =
                      Except.ok (fs, r, fd)) →
                    r = [] ∧ fd = true := by
                  intro v r2 hm
                  rcases hcont : parseFields fuel r2 none with _ | ⟨fs3, r3, fd3⟩
                  · rw [hcont] at hm; cases hm
                  · rw [hcont] at hm
                    simp only [Except.ok.injEq, Prod.mk.injEq] at hm
                    obtain ⟨_, hr, hfd⟩ := hm
                    obtain ⟨hr3, hfd3⟩ := ih _ _ _ _ hcont
                    subst hr hfd
                    exact ⟨hr3, hfd3⟩
                rcases hx : (if key &&& 7 = 0 then
                    (readVarint r1).map (fun p => (PVal.int p.1, p.2))
                  else if key &&& 7 = 1 then
                    (readInt64 r1).map (fun p => (PVal.int p.1, p.2))
                  else if key &&& 7 = 2 then
                    (readString r1).map (fun p => (PVal.bytes p.1, p.2))
                  else (readInt32 r1).map (fun p => (PVal.int p.1, p.2))) with e | ⟨v, r2⟩
                · rw [hx] at h; cases h
                · rw [hx] at h
                  dsimp only at h
                  exact main v r2 h

/-! ## Minimal re-encoding algebra -/

theorem SubEnc_refl (a : List Nat) : SubEnc a a := ⟨le_refl _, fun _ => rfl⟩

theorem SubEnc_append {a1 b1 a2 b2 : List Nat} (h1 : SubEnc a1 b1) (h2 : SubEnc a2 b2) :
    SubEnc (a1 ++ a2) (b1 ++ b2) := by
  obtain ⟨hl1, he1⟩ := h1
  obtain ⟨hl2, he2⟩ := h2
  constructor
  · simp only [List.length_append]
    omega
  · intro hlen
    simp only [List.length_append] at hlen
    have e1 := he1 (by omega)
    have e2 := he2 (by omega)
    rw [e1, e2]

/-- The synthesized key varint is a minimal re-encoding of the consumed
key chunk. -/
theorem SubEnc_key {c : List Nat} (key : Nat) (hs : varintShape c = true)
    (hb : ∀ b ∈ c, b < 256) (hv : key = varintVal c) : SubEnc (wvN key) c := by
  rw [hv]
  exact varint_SubEnc c hs hb

/-! ## Short reads fail -/

theorem readN_short {n : Nat} {l : List Nat} (h : l.length < n) :
    readN n l = .error .truncated := by
  unfold readN
  rw [if_neg (by omega)]

theorem readString_short (L : Nat) (p : List Nat) (hL : L < 2 ^ 77)
    (hp : p.length < L) : readString (wvN L ++ p) = .error .truncated := by
  unfold readString
  rw [readVarint_wvN L p hL]
  dsimp only [Except.bind]
  exact readN_short hp

/-! ## Little-endian byte round-trip -/

theorem toLE_fromLE : ∀ c : List Nat, (∀ b ∈ c, b < 256) → toLE c.length (fromLE c) = c := by
  intro c
  induction c with
  | nil => intro _; rfl
  | cons b t ih =>
    intro hb
    have hblt : b < 256 := hb b (by simp)
    simp only [List.length_cons]
    rw [toLE, fromLE]
    have h1 : (b + 256 * fromLE t) % 256 = b := by omega
    have h2 : (b + 256 * fromLE t) / 256 = fromLE t := by omega
    rw [h1, h2, ih (fun x hx => hb x (by simp [hx]))]

theorem fromLE_lt : ∀ c : List Nat, (∀ b ∈ c, b < 256) → fromLE c < 256 ^ c.length := by
  intro c
  induction c with
  | nil => intro _; simp [fromLE]
  | cons b t ih =>
    intro hb
    have hblt : b < 256 := hb b (by simp)
    have ht := ih (fun x hx => hb x (by simp [hx]))
    rw [fromLE]
    simp only [List.length_cons, pow_succ]
    calc b + 256 * fromLE t < 256 + 256 * fromLE t := by omega
    _ ≤ 256 * (fromLE t + 1) := by omega
    _ ≤ 256 * 256 ^ t.length := by
        have : fromLE t + 1 ≤ 256 ^ t.length := ht
        omega
    _ = 256 ^ t.length * 256 := by ring

/-- Decomposition of a successful `readString`: a varint length chunk
followed by exactly that many payload bytes. -/
theorem readString_ok {l s r : List Nat} (h : readString l = .ok (s, r)) :
    ∃ cl, l = cl ++ s ++ r ∧ varintShape cl = true ∧ varintVal cl = s.length := by
  unfold readString at h
  rcases hv : readVarint l with e | ⟨len, rm⟩ <;> rw [hv] at h
  · cases h
  · simp only [Except.bind] at h
    obtain ⟨hsp, hlen⟩ := readN_ok h
    obtain ⟨cl, hcl, hshape, hval⟩ := readVarint_ok hv
    subst hsp
    exact ⟨cl, by rw [hcl, List.append_assoc], hshape, by omega⟩

/-! ## Varint length formula -/

theorem wvLoop_len : ∀ v, 1 ≤ v → (wvLoop v).length = Nat.log2 v / 7 + 1 := by
  intro v
  induction v using Nat.strong_induction_on with
  | _ v ih =>
    intro h1
    rw [wvLoop_eq v h1]
    by_cases h128 : v < 128
    · have hd : v / 128 = 0 := by omega
      rw [hd, wvLoop_zero]
      have hlt : v < 2 ^ 7 := by norm_num; omega
      have hlog : Nat.log2 v < 7 := (Nat.log2_lt (by omega)).mpr hlt
      simp only [List.length_cons, List.length_nil]
      omega
    · have hd1 : 1 ≤ v / 128 := by omega
      have hdlt : v / 128 < v := by omega
      have ihv := ih (v / 128) hdlt hd1
      simp only [List.length_cons, ihv]
      have hge : 2 ^ 7 ≤ v := by norm_num; omega
      have hlog7 : 7 ≤ Nat.log2 v := (Nat.le_log2 (by omega)).mpr hge
      have hdiv : Nat.log2 (v / 128) = Nat.log2 v - 7 := by
        have e : v / 128 = v / 2 / 2 / 2 / 2 / 2 / 2 / 2 := by omega
        rw [e]
        simp only [Nat.log2_eq_log_two, Nat.log_div_base]
        omega
      rw [hdiv]
      omega

/-! ## The nested-group family -/

theorem nestTree_wf : ∀ n, WfFields (nestTree n) := by
  intro n
  induction n with
  | zero => exact .nil
  | succ n ih => exact .cons (.group 1 (nestTree n) (by omega) (by norm_num) ih) .nil

theorem nestTree_ser : ∀ n, serFields (nestTree n) =
    .ok (List.replicate n 11 ++ List.replicate n 12) := by
  intro n
  induction n with
  | zero => rfl
  | succ n ih =>
    show serFields [ProtoField.mk 1 3 (.msg (nestTree n))] = _
    rw [serFields, serField_group 1 (nestTree n) _ ih]
    show Except.ok ((wvN (8 * 1 + 3) ++ (List.replicate n 11 ++ List.replicate n 12) ++
      wvN (8 * 1 + 4)) ++ []) = _
    have h11 : wvN (8 * 1 + 3) = [11] := rfl
    have h12 : wvN (8 * 1 + 4) = [12] := rfl
    rw [h11, h12, List.append_nil]
    rw [List.replicate_succ, List.replicate_succ']
    simp [List.append_assoc]

theorem nestTree_depth : ∀ n, treeDepth (nestTree n) = n := by
  intro n
  induction n with
  | zero => rfl
  | succ n ih =>
    show treeDepth [ProtoField.mk 1 3 (.msg (nestTree n))] = n + 1
    simp only [treeDepth, fieldDepth, valDepth, ih]
    omega

/-! ## Claim theorems -/

set_option maxRecDepth 1000000

/-- C2 (counterexample): parsing has no depth bound at all — an input
whose group-nesting depth is 101, beyond the depth 100 the claim says
must fail with `DepthExceeded`, parses successfully into a tree of
depth 101. -/
theorem C2_counterexample :
    ofBytes (List.replicate 101 11 ++ List.replicate 101 12) = .ok (nestTree 101) ∧
    treeDepth (nestTree 101) = 101 := by
  constructor
  · decide
  · decide

/-- C2 (amended): the recursive descent of `_parseFields` into nested
groups is not depth-bounded: for every `n`, the input of `n` GROUPSTART
tags followed by `n` matching GROUPEND tags parses successfully into
the `n`-deep chain of nested groups, and no `DepthExceeded` failure
exists anywhere in the codec. -/
theorem C2_no_depth_bound (n : Nat) :
    ofBytes (List.replicate n 11 ++ List.replicate n 12) = .ok (nestTree n) ∧
    treeDepth (nestTree n) = n := by
  refine ⟨?_, nestTree_depth n⟩
  rcases Nat.eq_zero_or_pos n with h0 | h1
  · subst h0; rfl
  · have hser := nestTree_ser n
    have hwf := nestTree_wf n
    have hsp := serPar (sizeOf (nestTree n)) (nestTree n) (le_refl _) _ hwf hser []
      none ((List.replicate n 11 ++ List.replicate n 12).length + 1) (by simp)
    rw [List.append_nil] at hsp
    have h1e : parseFields (([] : List Nat).length + 1) ([] : List Nat) none =
        .ok ([], [], true) := rfl
    rw [h1e] at hsp
    dsimp only [Except.map] at hsp
    rw [List.append_nil] at hsp
    unfold ofBytes
    rw [if_pos (by simp; omega), hsp]

/-- C3 (counterexample): `readVarint` does not cap accumulation at 10
groups of 7 bits — the 11-byte varint of ten continuation bytes and a
final `1` uses 11 groups and is accepted, returning the 64-bit-
overflowing value `2^70`. -/
theorem C3_counterexample :
    readVarint (List.replicate 10 128 ++ [1]) = .ok (2 ^ 70, []) ∧ 2 ^ 64 ≤ 2 ^ 70 := by
  constructor
  · decide
  · norm_num

/-- C3 (amended): `readVarint` allows up to 11 groups of 7 bits and
fails with `varintTooLong` only from the 12th group on: any input
starting with 11 continuation-flagged bytes is rejected. -/
theorem C3_amended (pre l : List Nat) (h11 : pre.length = 11)
    (hb : ∀ b ∈ pre, 128 ≤ b) :
    readVarint (pre ++ l) = .error .varintTooLong := by
  unfold readVarint
  refine readVarintAux_tooLong pre 0 0 l ?_ (by omega) hb
  intro hc
  subst hc
  simp at h11

theorem C3_amended_witness :
    readVarint (List.replicate 11 128 ++ []) = .error .varintTooLong :=
  C3_amended (List.replicate 11 128) [] (by decide) (by decide)

/-- C4: for every tree built only from the scalar put operations with
positive in-range field numbers and in-range values, serializing
succeeds and parsing the serialization yields exactly the original
tree (same fields, same order, same wire types, same values). -/
theorem C4_scalar_roundtrip (fs : List ProtoField) (h : WfScalarFields fs) :
    ∃ C, serFields fs = .ok C ∧ ofBytes C = .ok fs := by
  have hwf := wfScalar_wf h
  obtain ⟨C, hser⟩ := serFields_total (sizeOf fs) fs (le_refl _) hwf
  refine ⟨C, hser, ?_⟩
  have hsp := serPar (sizeOf fs) fs (le_refl _) C hwf hser [] none (C.length + 1)
    (by simp)
  rw [List.append_nil] at hsp
  have h1e : parseFields (([] : List Nat).length + 1) ([] : List Nat) none =
      .ok ([], [], true) := rfl
  rw [h1e] at hsp
  dsimp only [Except.map] at hsp
  rw [List.append_nil] at hsp
  unfold ofBytes
  by_cases hC : 0 < C.length
  · rw [if_pos hC, hsp]
  · rw [if_neg hC]
    have hCnil : C = [] := by
      rcases C with _ | _
      · rfl
      · simp at hC
    subst hCnil
    rw [h1e] at hsp
    simp only [Except.ok.injEq, Prod.mk.injEq] at hsp
    obtain ⟨hfs, _, _⟩ := hsp
    rw [hfs]

theorem C4_scalar_roundtrip_witness :
    ∃ C, serFields [ProtoField.mk 2 2 (.bytes [97, 98]), ProtoField.mk 1 0 (.int 300)] =
        .ok C ∧
      ofBytes C = .ok [ProtoField.mk 2 2 (.bytes [97, 98]), ProtoField.mk 1 0 (.int 300)] :=
  C4_scalar_roundtrip _
    (.cons (.str 2 [97, 98] (by omega) (by norm_num) (by decide) (by norm_num))
      (.cons (.varint 1 300 (by omega) (by norm_num) (by decide) (by decide)) .nil))

/-- C5: for every unsigned 64-bit value `v`, reading back the bytes of
`writeVarint v` returns `v` with nothing left over, and the encoded
length is `ceil(bits(v)/7)` with a minimum of one byte for `v = 0`. -/
theorem C5_varint_law (v : Nat) (h : v < 2 ^ 64) :
    readVarint (wvN v) = .ok (v, []) ∧
    (wvN v).length = max 1 ((bitsOf v + 6) / 7) := by
  constructor
  · have hw := readVarint_wvN v [] (by omega)
    rw [List.append_nil] at hw
    exact hw
  · rcases Nat.eq_zero_or_pos v with h0 | h1
    · subst h0; decide
    · rw [wvN_pos v h1, wvLoop_len v h1]
      unfold bitsOf
      rw [if_neg (by omega)]
      have he : (Nat.log2 v + 1 + 6) / 7 = Nat.log2 v / 7 + 1 := by omega
      rw [he, Nat.max_eq_right (by omega)]

theorem C5_varint_law_witness :
    readVarint (wvN 300) = .ok (300, []) ∧
    (wvN 300).length = max 1 ((bitsOf 300 + 6) / 7) :=
  C5_varint_law 300 (by norm_num)

/-- C6: collapse law of auto-export — a tree with two LENGTH_DELIM
fields numbered 7 holding `"a"` and `"b"` auto-exports to the mapping
`7 ↦ ["a", "b"]`; importing that mapping rebuilds the same two-field
tree (so auto-exporting again reproduces the list); and a single field
numbered 7 auto-exports to the bare scalar `7 ↦ "a"`, not a
one-element list. -/
theorem C6_collapse :
    toDictAuto [ProtoField.mk 7 2 (.bytes [97]), ProtoField.mk 7 2 (.bytes [98])] =
      .ok [(7, PyVal.list [PyVal.str [97], PyVal.str [98]])] ∧
    ofDict [(7, PyVal.list [PyVal.str [97], PyVal.str [98]])] =
      .ok [ProtoField.mk 7 2 (.bytes [97]), ProtoField.mk 7 2 (.bytes [98])] ∧
    toDictAuto [ProtoField.mk 7 2 (.bytes [97])] = .ok [(7, PyVal.str [97])] :=
  ⟨rfl, rfl, rfl⟩

/-- C9: `writeVarint` emits no bytes at all for a negative value (the
zero special case does not apply and the emission loop never runs), so
a field added with `putVarint` and a negative value serializes as a
bare tag with no payload. -/
theorem C9_negative_varint (idx : Nat) (v : Int) (h : v < 0) :
    writeVarint v = [] ∧ serFields (putVarint [] idx v) = .ok (wvN (8 * idx)) := by
  have hwv : writeVarint v = [] := by
    unfold writeVarint
    rw [if_neg (by omega)]
    have ht : v.toNat = 0 := by omega
    rw [ht]
    rfl
  refine ⟨hwv, ?_⟩
  show serFields [ProtoField.mk idx 0 (.int v)] = _
  rw [serFields, serField_varint idx v, hwv]
  show Except.ok ((wvN (8 * idx) ++ []) ++ []) = Except.ok (wvN (8 * idx))
  simp

theorem C9_negative_varint_witness :
    writeVarint (-5) = [] ∧ serFields (putVarint [] 1 (-5)) = .ok (wvN (8 * 1)) :=
  C9_negative_varint 1 (-5) (by norm_num)

/-- C10: for a field number with no matching stored field, `getInt`
returns the default `0` while `getBytes`, `getUtf8` and `getProtoBuf`
return an empty result (`none`); and `getInt` fails exactly when a
first matching field exists whose wire type is not VARINT (0),
INT64 (1) or INT32 (5). -/
theorem C10_getters (fs : List ProtoField) (idx : Nat) :
    (get fs idx = none →
      getInt fs idx = .ok (.int 0) ∧ getBytes fs idx = .ok none ∧
      getUtf8 fs idx = .ok none ∧ getProtoBuf fs idx = .ok none) ∧
    (∀ f, get fs idx = some f →
      ((∃ e, getInt fs idx = .error e) ↔ ¬(f.type = 0 ∨ f.type = 1 ∨ f.type = 5))) := by
  constructor
  · intro h
    refine ⟨?_, ?_, ?_, ?_⟩
    · unfold getInt; rw [h]
    · unfold getBytes; rw [h]
    · unfold getUtf8 getBytes; rw [h]
    · unfold getProtoBuf; rw [h]
  · intro f hf
    unfold getInt
    rw [hf]
    dsimp only
    by_cases hc : f.type = 5 ∨ f.type = 1 ∨ f.type = 0
    · rw [if_pos hc]
      constructor
      · rintro ⟨e, he⟩
        exact Except.noConfusion he
      · intro hn
        exact absurd (by tauto) hn
    · rw [if_neg hc]
      constructor
      · intro _; tauto
      · intro _; exact ⟨.typeError, rfl⟩

theorem C10_getters_witness :
    (get [ProtoField.mk 1 2 (.bytes [97])] 2 = none →
      getInt [ProtoField.mk 1 2 (.bytes [97])] 2 = .ok (.int 0) ∧
      getBytes [ProtoField.mk 1 2 (.bytes [97])] 2 = .ok none ∧
      getUtf8 [ProtoField.mk 1 2 (.bytes [97])] 2 = .ok none ∧
      getProtoBuf [ProtoField.mk 1 2 (.bytes [97])] 2 = .ok none) ∧
    (∀ f, get [ProtoField.mk 1 2 (.bytes [97])] 2 = some f →
      ((∃ e, getInt [ProtoField.mk 1 2 (.bytes [97])] 2 = .error e) ↔
        ¬(f.type = 0 ∨ f.type = 1 ∨ f.type = 5))) :=
  C10_getters [ProtoField.mk 1 2 (.bytes [97])] 2

/-! ## The parsed-tree group invariant -/

theorem parse_noGroupEnd :
    ∀ fuel l g fs r fd, parseFields fuel l g = .ok (fs, r, fd) → noGroupEnd fs = true := by
  intro fuel
  induction fuel with
  | zero => intro l g fs r fd h; cases h
  | succ fuel ih =>
    intro l g fs r fd h
    rcases l with _ | ⟨b, rest⟩
    · rw [parseFields] at h
      simp only [Except.ok.injEq, Prod.mk.injEq] at h
      obtain ⟨hfs, _, _⟩ := h
      rw [← hfs]
      rfl
    · rw [parseFields] at h
      rcases hrv : readVarint (b :: rest) with _ | ⟨key, r1⟩
      · rw [hrv] at h; cases h
      · rw [hrv] at h
        dsimp only at h
        by_cases hidx : key >>> 3 = 0
        · rw [if_pos hidx] at h; cases h
        · rw [if_neg hidx] at h
          by_cases hwt6 : 6 ≤ key &&& 7
          · rw [if_pos hwt6] at h
            have h67 : key &&& 7 = 6 ∨ key &&& 7 = 7 := by
              have := and7_lt key
              omega
            rw [skipField67 h67] at h
            cases h
          · rw [if_neg hwt6] at h
            by_cases hwt4 : key &&& 7 = 4
            · rw [if_pos hwt4] at h
              by_cases hg : g = some (key >>> 3)
              · rw [if_pos hg] at h
                simp only [Except.ok.injEq, Prod.mk.injEq] at h
                obtain ⟨hfs, _, _⟩ := h
                rw [← hfs]
                rfl
              · rw [if_neg hg] at h; cases h
            · rw [if_neg hwt4] at h
              by_cases hwt3 : key &&& 7 = 3
              · rw [if_pos hwt3] at h
                rcases hsub : parseFields fuel r1 (some (key >>> 3)) with _ | ⟨sub, r2, fe⟩
                · rw [hsub] at h; cases h
                · rw [hsub] at h
                  dsimp only at h
                  rcases fe with _ | _
                  · simp at h
                  · rw [if_pos rfl] at h
                    rcases hcont : parseFields fuel r2 g with _ | ⟨fs3, r3, fd3⟩
                    · rw [hcont] at h; cases h
                    · rw [hcont] at h
                      dsimp only at h
                      simp only [Except.ok.injEq, Prod.mk.injEq] at h
                      obtain ⟨hfs, _, _⟩ := h
                      rw [← hfs]
                      have hsubI := ih _ _ _ _ _ hsub
                      have hcontI := ih _ _ _ _ _ hcont
                      simp [noGroupEnd, fieldNoGroupEnd, valIsTree, hsubI, hcontI]
              · rw [if_neg hwt3] at h
                have main : ∀ (v : PVal) (r2 : List Nat),
                    ((match parseFields fuel r2 g with
                      | Except.error e => Except.error e
                      | Except.ok (fs3, r3, fd3) =>
                        Except.ok (ProtoField.mk (key >>> 3) (key &&& 7) v :: fs3, r3, fd3)) =
                      Except.ok (fs, r, fd)) →
                    noGroupEnd fs = true := by
                  intro v r2 hm
                  rcases hcont : parseFields fuel r2 g with _ | ⟨fs3, r3, fd3⟩
                  · rw [hcont] at hm; cases hm
                  · rw [hcont] at hm
                    simp only [Except.ok.injEq, Prod.mk.injEq] at hm
                    obtain ⟨hfs, _, _⟩ := hm
                    rw [← hfs]
                    have hcontI := ih _ _ _ _ _ hcont
                    simp [noGroupEnd, fieldNoGroupEnd, hwt3, hwt4, hcontI]
                rcases hx : (if key &&& 7 = 0 then
                    (readVarint r1).map (fun p => (PVal.int p.1, p.2))
                  else if key &&& 7 = 1 then
                    (readInt64 r1).map (fun p => (PVal.int p.1, p.2))
                  else if key &&& 7 = 2 then
                    (readString r1).map (fun p => (PVal.bytes p.1, p.2))
                  else (readInt32 r1).map (fun p => (PVal.int p.1, p.2))) with e | ⟨v, r2⟩
                · rw [hx] at h; cases h
                · rw [hx] at h
                  dsimp only at h
                  exact main v r2 h

/-- C7: GROUPEND is a structural terminator, never a retained field:
every parsed tree satisfies the group invariant (no stored field has
wire type 4, and every wire-type-3 field holds a nested tree satisfying
the same invariant), and serialization synthesizes the GROUPEND tag of
a GROUPSTART field from the field number, never from stored state. -/
theorem C7_group_invariant :
    (∀ B fs, ofBytes B = .ok fs → noGroupEnd fs = true) ∧
    (∀ idx sub csub, serFields sub = .ok csub →
      serField (.mk idx 3 (.msg sub)) =
        .ok (wvN (8 * idx + 3) ++ csub ++ wvN (8 * idx + 4))) := by
  constructor
  · intro B fs h
    unfold ofBytes at h
    by_cases hB : 0 < B.length
    · rw [if_pos hB] at h
      rcases hp : parseFields (B.length + 1) B none with e | ⟨fs2, r, fd⟩ <;> rw [hp] at h
      · cases h
      · simp only [Except.ok.injEq] at h
        subst h
        exact parse_noGroupEnd _ _ _ _ _ _ hp
    · rw [if_neg hB] at h
      simp only [Except.ok.injEq] at h
      rw [← h]
      rfl
  · intro idx sub csub hsub
    exact serField_group idx sub csub hsub

theorem C7_group_invariant_witness :
    noGroupEnd [ProtoField.mk 1 3 (.msg []), ProtoField.mk 2 0 (.int 5)] = true ∧
    serField (.mk 1 3 (.msg [])) = .ok (wvN (8 * 1 + 3) ++ [] ++ wvN (8 * 1 + 4)) :=
  ⟨C7_group_invariant.1 [11, 12, 16, 5]
      [ProtoField.mk 1 3 (.msg []), ProtoField.mk 2 0 (.int 5)] (by decide),
   C7_group_invariant.2 1 [] [] rfl⟩

/-! ## Truncation families -/

theorem ofBytes_extend (fs : List ProtoField) (C rest : List Nat) (hwf : WfFields fs)
    (hser : serFields fs = .ok C) (hrest : rest ≠ []) (e : PErr)
    (h : parseFields (rest.length + 1) rest none = .error e) :
    ofBytes (C ++ rest) = .error e := by
  have hsp := serPar (sizeOf fs) fs (le_refl _) C hwf hser rest none
    ((C ++ rest).length + 1) (by omega)
  rw [h] at hsp
  dsimp only [Except.map] at hsp
  unfold ofBytes
  rw [if_pos (by
    have := List.length_pos.mpr hrest
    simp only [List.length_append]
    omega)]
  rw [hsp]

theorem parse_truncated_varint (bs : List Nat) (hne : bs ≠ []) (hlen : bs.length ≤ 10)
    (hb : ∀ b ∈ bs, 128 ≤ b) :
    parseFields (bs.length + 1) bs none = .error .truncated := by
  rcases bs with _ | ⟨b, rest⟩
  · simp at hne
  · rw [parseFields]
    have hrv : readVarint (b :: rest) = .error .truncated := by
      unfold readVarint
      exact readVarintAux_allCont (b :: rest) 0 0 hb (by omega)
    rw [hrv]

theorem parse_truncated_payload (idx L : Nat) (p : List Nat) (hidx : 1 ≤ idx)
    (hidx2 : idx < 2 ^ 29) (hL : L < 2 ^ 64) (hp : p.length < L) :
    parseFields ((wvN (8 * idx + 2) ++ wvN L ++ p).length + 1)
      (wvN (8 * idx + 2) ++ wvN L ++ p) none = .error .truncated := by
  rcases hkb : wvN (8 * idx + 2) with _ | ⟨y, ys⟩
  · exact absurd hkb (wvN_ne_nil _)
  · have hrd := readVarint_wvN (8 * idx + 2) (wvN L ++ p) (by omega)
    rw [hkb] at hrd
    simp only [List.cons_append, List.append_assoc] at hrd ⊢
    rw [parseFields, hrd]
    dsimp only
    have hi : (8 * idx + 2) >>> 3 = idx := by rw [shift3]; omega
    have hw7 : (8 * idx + 2) &&& 7 = 2 := by rw [and7_mod]; omega
    rw [hi, hw7]
    rw [if_neg (by omega), if_neg (by omega), if_neg (by omega), if_neg (by omega),
      if_neg (by omega), if_neg (by omega), if_pos rfl]
    rw [readString_short L p (by omega) hp]
    dsimp only [Except.map]

theorem parse_unterminated (idx : Nat) (sub : List ProtoField) (csub : List Nat)
    (hidx : 1 ≤ idx) (hidx2 : idx < 2 ^ 29) (hwf : WfFields sub)
    (hser : serFields sub = .ok csub) :
    parseFields ((wvN (8 * idx + 3) ++ csub).length + 1) (wvN (8 * idx + 3) ++ csub)
      none = .error .unterminatedGroup := by
  rcases hkb : wvN (8 * idx + 3) with _ | ⟨y, ys⟩
  · exact absurd hkb (wvN_ne_nil _)
  · have hrd := readVarint_wvN (8 * idx + 3) csub (by omega)
    rw [hkb] at hrd
    simp only [List.cons_append] at hrd ⊢
    rw [parseFields, hrd]
    dsimp only
    have hi : (8 * idx + 3) >>> 3 = idx := by rw [shift3]; omega
    have hw7 : (8 * idx + 3) &&& 7 = 3 := by rw [and7_mod]; omega
    rw [hi, hw7]
    rw [if_neg (by omega), if_neg (by omega), if_neg (by omega), if_pos rfl]
    have hsub := serPar (sizeOf sub) sub (le_refl _) csub hwf hser [] (some idx)
      ((y :: (ys ++ csub)).length) (by simp; omega)
    rw [List.append_nil] at hsub
    have h2e : parseFields (([] : List Nat).length + 1) ([] : List Nat) (some idx) =
        .ok ([], [], false) := rfl
    rw [h2e] at hsub
    dsimp only [Except.map] at hsub
    rw [hsub]
    dsimp only
    rw [if_neg (by simp)]

/-- C8: truncation atomicity — a buffer ending mid-varint fails with
`truncated`; a buffer ending inside a length-delimited payload fails
with `truncated`; a buffer exhausted while a group is still open fails
with `unterminatedGroup`; in every such case parsing returns an error,
never a partial tree. -/
theorem C8_truncation :
    (∀ fs C bs, WfFields fs → serFields fs = .ok C → bs ≠ [] → bs.length ≤ 10 →
      (∀ b ∈ bs, 128 ≤ b) → ofBytes (C ++ bs) = .error .truncated) ∧
    (∀ fs C idx L p, WfFields fs → serFields fs = .ok C → 1 ≤ idx → idx < 2 ^ 29 →
      L < 2 ^ 64 → p.length < L →
      ofBytes (C ++ (wvN (8 * idx + 2) ++ wvN L ++ p)) = .error .truncated) ∧
    (∀ fs C idx sub csub, WfFields fs → serFields fs = .ok C → 1 ≤ idx →
      idx < 2 ^ 29 → WfFields sub → serFields sub = .ok csub →
      ofBytes (C ++ (wvN (8 * idx + 3) ++ csub)) = .error .unterminatedGroup) := by
  refine ⟨?_, ?_, ?_⟩
  · intro fs C bs hwf hser hne hlen hb
    exact ofBytes_extend fs C bs hwf hser hne _ (parse_truncated_varint bs hne hlen hb)
  · intro fs C idx L p hwf hser h1 h2 hL hp
    refine ofBytes_extend fs C _ hwf hser ?_ _
      (parse_truncated_payload idx L p h1 h2 hL hp)
    rcases hkb : wvN (8 * idx + 2) with _ | ⟨y, ys⟩
    · exact absurd hkb (wvN_ne_nil _)
    · simp [hkb]
  · intro fs C idx sub csub hwf hser h1 h2 hwsub hsersub
    refine ofBytes_extend fs C _ hwf hser ?_ _
      (parse_unterminated idx sub csub h1 h2 hwsub hsersub)
    rcases hkb : wvN (8 * idx + 3) with _ | ⟨y, ys⟩
    · exact absurd hkb (wvN_ne_nil _)
    · simp [hkb]

theorem C8_truncation_witness :
    ofBytes ([] ++ [128]) = .error .truncated ∧
    ofBytes ([] ++ (wvN (8 * 1 + 2) ++ wvN 5 ++ [0])) = .error .truncated ∧
    ofBytes ([] ++ (wvN (8 * 1 + 3) ++ [])) = .error .unterminatedGroup :=
  ⟨C8_truncation.1 [] [] [128] .nil rfl (by decide) (by decide) (by decide),
   C8_truncation.2.1 [] [] 1 5 [0] .nil rfl (by decide) (by norm_num) (by norm_num)
     (by decide),
   C8_truncation.2.2 [] [] 1 [] [] .nil rfl (by decide) (by norm_num) .nil rfl⟩

/-! ## Parse-then-serialize: minimal re-encoding -/

theorem bytesLt_append {a b : List Nat} (h : ∀ x ∈ a ++ b, x < 256) :
    (∀ x ∈ a, x < 256) ∧ (∀ x ∈ b, x < 256) := by
  constructor
  · intro x hx; exact h x (List.mem_append.mpr (Or.inl hx))
  · intro x hx; exact h x (List.mem_append.mpr (Or.inr hx))

theorem readInt64_ok {l : List Nat} {n : Nat} {r : List Nat}
    (h : readInt64 l = .ok (n, r)) :
    ∃ c, l = c ++ r ∧ c.length = 8 ∧ n = fromLE c := by
  unfold readInt64 at h
  rcases hy : readN 8 l with e | ⟨c, r2⟩ <;> rw [hy] at h
  · cases h
  · simp only [Except.map, Except.ok.injEq, Prod.mk.injEq] at h
    obtain ⟨hn, hr⟩ := h
    subst hr
    obtain ⟨hsp, hlen⟩ := readN_ok hy
    exact ⟨c, hsp, hlen, hn.symm⟩

theorem readInt32_ok {l : List Nat} {n : Nat} {r : List Nat}
    (h : readInt32 l = .ok (n, r)) :
    ∃ c, l = c ++ r ∧ c.length = 4 ∧ n = fromLE c := by
  unfold readInt32 at h
  rcases hy : readN 4 l with e | ⟨c, r2⟩ <;> rw [hy] at h
  · cases h
  · simp only [Except.map, Except.ok.injEq, Prod.mk.injEq] at h
    obtain ⟨hn, hr⟩ := h
    subst hr
    obtain ⟨hsp, hlen⟩ := readN_ok hy
    exact ⟨c, hsp, hlen, hn.symm⟩

/-- Parse-then-serialize composition: the serialization of the parsed
fields, followed by the end tag the serializer synthesizes for the
parsing context, is a minimal re-encoding of the bytes the parse
consumed. -/
theorem parSer :
    ∀ fuel l g fs r fd, parseFields fuel l g = .ok (fs, r, fd) → (∀ x ∈ l, x < 256) →
      ∃ C c, serFields fs = .ok C ∧ l = c ++ r ∧ SubEnc (C ++ endBytes g fd) c := by
  intro fuel
  induction fuel with
  | zero => intro l g fs r fd h _; cases h
  | succ fuel ih =>
    intro l g fs r fd h hbl
    rcases l with _ | ⟨b, rest⟩
    · rw [parseFields] at h
      simp only [Except.ok.injEq, Prod.mk.injEq] at h
      obtain ⟨hfs, hr, hfd⟩ := h
      subst hfs; subst hr; subst hfd
      refine ⟨[], [], rfl, rfl, ?_⟩
      rcases g with _ | e
      · exact SubEnc_refl []
      · exact SubEnc_refl []
    · rw [parseFields] at h
      rcases hrv : readVarint (b :: rest) with e | ⟨key, r1⟩
      · rw [hrv] at h; cases h
      · rw [hrv] at h
        dsimp only at h
        obtain ⟨ck, hck, hcksh, hckv⟩ := readVarint_ok hrv
        rw [hck] at hbl
        obtain ⟨hbck, hbr1⟩ := bytesLt_append hbl
        have hkey : key = 8 * (key >>> 3) + (key &&& 7) := by
          rw [shift3, and7_mod]
          omega
        by_cases hidx : key >>> 3 = 0
        · rw [if_pos hidx] at h; cases h
        · rw [if_neg hidx] at h
          by_cases hwt6 : 6 ≤ key &&& 7
          · rw [if_pos hwt6] at h
            have h67 : key &&& 7 = 6 ∨ key &&& 7 = 7 := by
              have := and7_lt key
              omega
            rw [skipField67 h67] at h
            cases h
          · rw [if_neg hwt6] at h
            by_cases hwt4 : key &&& 7 = 4
            · rw [if_pos hwt4] at h
              by_cases hg : g = some (key >>> 3)
              · rw [if_pos hg] at h
                simp only [Except.ok.injEq, Prod.mk.injEq] at h
                obtain ⟨hfs, hr, hfd⟩ := h
                subst hfs; subst hr; subst hfd; subst hg
                refine ⟨[], ck, rfl, hck, ?_⟩
                rw [List.nil_append]
                show SubEnc (wvN (8 * (key >>> 3) + 4)) ck
                have h84 : 8 * (key >>> 3) + 4 = key := by omega
                rw [h84]
                exact SubEnc_key key hcksh hbck hckv
              · rw [if_neg hg] at h; cases h
            · rw [if_neg hwt4] at h
              by_cases hwt3 : key &&& 7 = 3
              · rw [if_pos hwt3] at h
                rcases hsub : parseFields fuel r1 (some (key >>> 3)) with e | ⟨sub, r2, fe⟩
                · rw [hsub] at h; cases h
                · rw [hsub] at h
                  dsimp only at h
                  rcases fe with _ | _
                  · simp at h
                  · rw [if_pos rfl] at h
                    rcases hcont : parseFields fuel r2 g with e | ⟨fs3, r3, fd3⟩
                    · rw [hcont] at h; cases h
                    · rw [hcont] at h
                      dsimp only at h
                      simp only [Except.ok.injEq, Prod.mk.injEq] at h
                      obtain ⟨hfs, hr, hfd⟩ := h
                      subst hfs; subst hr; subst hfd
                      obtain ⟨Csub, csubc, hsersub, hr1split, hSsub⟩ :=
                        ih _ _ _ _ _ hsub hbr1
                      rw [hr1split] at hbr1
                      obtain ⟨hbcsubc, hbr2⟩ := bytesLt_append hbr1
                      obtain ⟨C3, c3, hser3, hr2split, hS3⟩ := ih _ _ _ _ _ hcont hbr2
                      have hEB : endBytes (some (key >>> 3)) true =
                          wvN (8 * (key >>> 3) + 4) := rfl
                      rw [hEB] at hSsub
                      have hserC : serFields
                          (ProtoField.mk (key >>> 3) 3 (.msg sub) :: fs3) =
                          .ok ((wvN (8 * (key >>> 3) + 3) ++ Csub ++
                            wvN (8 * (key >>> 3) + 4)) ++ C3) := by
                        rw [serFields, serField_group (key >>> 3) sub Csub hsersub,
                          hser3]
                        rfl
                      refine ⟨_, ck ++ (csubc ++ c3), hserC, ?_, ?_⟩
                      · rw [hck, hr1split, hr2split]
                        simp [List.append_assoc]
                      · have hS1 : SubEnc (wvN (8 * (key >>> 3) + 3)) ck := by
                          have h83 : 8 * (key >>> 3) + 3 = key := by omega
                          rw [h83]
                          exact SubEnc_key key hcksh hbck hckv
                        have hall := SubEnc_append hS1 (SubEnc_append hSsub hS3)
                        simp only [List.append_assoc] at hall ⊢
                        exact hall
              · rw [if_neg hwt3] at h
                have hwt : key &&& 7 = 0 ∨ key &&& 7 = 1 ∨ key &&& 7 = 2 ∨
                    key &&& 7 = 5 := by
                  have := and7_lt key
                  omega
                rcases hwt with hw | hw | hw | hw
                · -- VARINT value
                  rw [if_pos hw] at h
                  rcases hx : readVarint r1 with e | ⟨n, r2⟩
                  · rw [hx] at h
                    dsimp only [Except.map] at h
                    cases h
                  · rw [hx] at h
                    dsimp only [Except.map] at h
                    rcases hcont : parseFields fuel r2 g with e | ⟨fs3, r3, fd3⟩
                    · rw [hcont] at h; cases h
                    · rw [hcont] at h
                      dsimp only at h
                      simp only [Except.ok.injEq, Prod.mk.injEq] at h
                      obtain ⟨hfs, hr, hfd⟩ := h
                      subst hfs; subst hr; subst hfd
                      obtain ⟨cv, hcv, hcvsh, hcvval⟩ := readVarint_ok hx
                      rw [hcv] at hbr1
                      obtain ⟨hbcv, hbr2⟩ := bytesLt_append hbr1
                      obtain ⟨C3, c3, hser3, hr2split, hS3⟩ := ih _ _ _ _ _ hcont hbr2
                      have hwv : writeVarint ((n : Int)) = wvN n := by
                        rw [writeVarint_nonneg ((n : Int)) (by omega)]
                        have ht : ((n : Int)).toNat = n := by omega
                        rw [ht]
                      have hserC : serFields
                          (ProtoField.mk (key >>> 3) 0 (.int (n : Int)) :: fs3) =
                          .ok ((wvN (8 * (key >>> 3)) ++ wvN n) ++ C3) := by
                        rw [serFields, serField_varint (key >>> 3) ((n : Int)), hwv,
                          hser3]
                        rfl
                      rw [hw]
                      refine ⟨_, ck ++ (cv ++ c3), hserC, ?_, ?_⟩
                      · rw [hck, hcv, hr2split]
                        simp [List.append_assoc]
                      · have hS1 : SubEnc (wvN (8 * (key >>> 3))) ck := by
                          have h80 : 8 * (key >>> 3) = key := by omega
                          rw [h80]
                          exact SubEnc_key key hcksh hbck hckv
                        have hSv : SubEnc (wvN n) cv :=
                          SubEnc_key n hcvsh hbcv hcvval
                        have hall := SubEnc_append hS1 (SubEnc_append hSv hS3)
                        simp only [List.append_assoc] at hall ⊢
                        exact hall
                · -- INT64 value
                  rw [if_neg (by omega), if_pos hw] at h
                  rcases hx : readInt64 r1 with e | ⟨n, r2⟩
                  · rw [hx] at h
                    dsimp only [Except.map] at h
                    cases h
                  · rw [hx] at h
                    dsimp only [Except.map] at h
                    rcases hcont : parseFields fuel r2 g with e | ⟨fs3, r3, fd3⟩
                    · rw [hcont] at h; cases h
                    · rw [hcont] at h
                      dsimp only at h
                      simp only [Except.ok.injEq, Prod.mk.injEq] at h
                      obtain ⟨hfs, hr, hfd⟩ := h
                      subst hfs; subst hr; subst hfd
                      obtain ⟨c8, hc8, hc8len, hc8val⟩ := readInt64_ok hx
                      rw [hc8] at hbr1
                      obtain ⟨hbc8, hbr2⟩ := bytesLt_append hbr1
                      obtain ⟨C3, c3, hser3, hr2split, hS3⟩ := ih _ _ _ _ _ hcont hbr2
                      have hn64 : n < 2 ^ 64 := by
                        have hlt := fromLE_lt c8 hbc8
                        rw [hc8len] at hlt
                        rw [hc8val]
                        norm_num at hlt ⊢
                        exact hlt
                      have hser64 : toLE 8 ((n : Int)).toNat = c8 := by
                        have ht : ((n : Int)).toNat = n := by omega
                        rw [ht, hc8val, ← hc8len]
                        exact toLE_fromLE c8 hbc8
                      have hserC : serFields
                          (ProtoField.mk (key >>> 3) 1 (.int (n : Int)) :: fs3) =
                          .ok ((wvN (8 * (key >>> 3) + 1) ++ c8) ++ C3) := by
                        rw [serFields, serField_i64 (key >>> 3) ((n : Int)) (by omega)
                          (by exact_mod_cast hn64), hser64, hser3]
                        rfl
                      rw [hw]
                      refine ⟨_, ck ++ (c8 ++ c3), hserC, ?_, ?_⟩
                      · rw [hck, hc8, hr2split]
                        simp [List.append_assoc]
                      · have hS1 : SubEnc (wvN (8 * (key >>> 3) + 1)) ck := by
                          have h81 : 8 * (key >>> 3) + 1 = key := by omega
                          rw [h81]
                          exact SubEnc_key key hcksh hbck hckv
                        have hall := SubEnc_append hS1
                          (SubEnc_append (SubEnc_refl c8) hS3)
                        simp only [List.append_assoc] at hall ⊢
                        exact hall
                · -- STRING value
                  rw [if_neg (by omega), if_neg (by omega), if_pos hw] at h
                  rcases hx : readString r1 with e | ⟨sv, r2⟩
                  · rw [hx] at h
                    dsimp only [Except.map] at h
                    cases h
                  · rw [hx] at h
                    dsimp only [Except.map] at h
                    rcases hcont : parseFields fuel r2 g with e | ⟨fs3, r3, fd3⟩
                    · rw [hcont] at h; cases h
                    · rw [hcont] at h
                      dsimp only at h
                      simp only [Except.ok.injEq, Prod.mk.injEq] at h
                      obtain ⟨hfs, hr, hfd⟩ := h
                      subst hfs; subst hr; subst hfd
                      obtain ⟨cl, hsplit2, hclsh, hclval⟩ := readString_ok hx
                      rw [hsplit2] at hbr1
                      rw [List.append_assoc] at hbr1
                      obtain ⟨hbcl, hbr1b⟩ := bytesLt_append hbr1
                      obtain ⟨hbsv, hbr2⟩ := bytesLt_append hbr1b
                      obtain ⟨C3, c3, hser3, hr2split, hS3⟩ := ih _ _ _ _ _ hcont hbr2
                      have hserC : serFields
                          (ProtoField.mk (key >>> 3) 2 (.bytes sv) :: fs3) =
                          .ok ((wvN (8 * (key >>> 3) + 2) ++ (wvN sv.length ++ sv)) ++
                            C3) := by
                        rw [serFields, serField_str (key >>> 3) sv, hser3]
                        rfl
                      rw [hw]
                      refine ⟨_, ck ++ ((cl ++ sv) ++ c3), hserC, ?_, ?_⟩
                      · rw [hck, hsplit2, hr2split]
                        simp [List.append_assoc]
                      · have hS1 : SubEnc (wvN (8 * (key >>> 3) + 2)) ck := by
                          have h82 : 8 * (key >>> 3) + 2 = key := by omega
                          rw [h82]
                          exact SubEnc_key key hcksh hbck hckv
                        have hSv : SubEnc (wvN sv.length ++ sv) (cl ++ sv) :=
                          SubEnc_append (SubEnc_key sv.length hclsh hbcl hclval.symm)
                            (SubEnc_refl sv)
                        have hall := SubEnc_append hS1 (SubEnc_append hSv hS3)
                        simp only [List.append_assoc] at hall ⊢
                        exact hall
                · -- INT32 value
                  rw [if_neg (by omega), if_neg (by omega), if_neg (by omega)] at h
                  rcases hx : readInt32 r1 with e | ⟨n, r2⟩
                  · rw [hx] at h
                    dsimp only [Except.map] at h
                    cases h
                  · rw [hx] at h
                    dsimp only [Except.map] at h
                    rcases hcont : parseFields fuel r2 g with e | ⟨fs3, r3, fd3⟩
                    · rw [hcont] at h; cases h
                    · rw [hcont] at h
                      dsimp only at h
                      simp only [Except.ok.injEq, Prod.mk.injEq] at h
                      obtain ⟨hfs, hr, hfd⟩ := h
                      subst hfs; subst hr; subst hfd
                      obtain ⟨c4, hc4, hc4len, hc4val⟩ := readInt32_ok hx
                      rw [hc4] at hbr1
                      obtain ⟨hbc4, hbr2⟩ := bytesLt_append hbr1
                      obtain ⟨C3, c3, hser3, hr2split, hS3⟩ := ih _ _ _ _ _ hcont hbr2
                      have hn32 : n < 2 ^ 32 := by
                        have hlt := fromLE_lt c4 hbc4
                        rw [hc4len] at hlt
                        rw [hc4val]
                        norm_num at hlt ⊢
                        exact hlt
                      have hser32 : toLE 4 ((n : Int)).toNat = c4 := by
                        have ht : ((n : Int)).toNat = n := by omega
                        rw [ht, hc4val, ← hc4len]
                        exact toLE_fromLE c4 hbc4
                      have hserC : serFields
                          (ProtoField.mk (key >>> 3) 5 (.int (n : Int)) :: fs3) =
                          .ok ((wvN (8 * (key >>> 3) + 5) ++ c4) ++ C3) := by
                        rw [serFields, serField_i32 (key >>> 3) ((n : Int)) (by omega)
                          (by exact_mod_cast hn32), hser32, hser3]
                        rfl
                      rw [hw]
                      refine ⟨_, ck ++ (c4 ++ c3), hserC, ?_, ?_⟩
                      · rw [hck, hc4, hr2split]
                        simp [List.append_assoc]
                      · have hS1 : SubEnc (wvN (8 * (key >>> 3) + 5)) ck := by
                          have h85 : 8 * (key >>> 3) + 5 = key := by omega
                          rw [h85]
                          exact SubEnc_key key hcksh hbck hckv
                        have hall := SubEnc_append hS1
                          (SubEnc_append (SubEnc_refl c4) hS3)
                        simp only [List.append_assoc] at hall ⊢
                        exact hall

/-- C1 (counterexample): parse-then-serialize does not reproduce every
accepted buffer byte for byte — the input `[0x88, 0x00, 0x00]`, whose
field key uses a non-minimal two-byte varint, parses successfully but
re-serializes to the shorter `[0x08, 0x00]`. -/
theorem C1_counterexample :
    ofBytes [136, 0, 0] = .ok [ProtoField.mk 1 0 (.int 0)] ∧
    serFields [ProtoField.mk 1 0 (.int 0)] = .ok [8, 0] ∧
    ([8, 0] : List Nat) ≠ [136, 0, 0] := by
  refine ⟨by decide, by decide, by decide⟩

/-- C1 (amended): serializing a parsed tree is a minimal re-encoding of
the input: for any genuine byte buffer the parser accepts, the
serialization of the resulting tree is never longer than the input, and
reproduces it byte for byte exactly when the lengths agree (in
particular whenever every varint in the input is minimally encoded). -/
theorem C1_parse_serialize (B : List Nat) (t : List ProtoField)
    (hB : ∀ x ∈ B, x < 256) (h : ofBytes B = .ok t) :
    ∃ C, serFields t = .ok C ∧ C.length ≤ B.length ∧
      (C.length = B.length → C = B) := by
  unfold ofBytes at h
  by_cases hBl : 0 < B.length
  · rw [if_pos hBl] at h
    rcases hp : parseFields (B.length + 1) B none with e | ⟨fs, r, fd⟩ <;> rw [hp] at h
    · cases h
    · simp only [Except.ok.injEq] at h
      subst h
      obtain ⟨hr, hfd⟩ := parse_none_all _ _ _ _ _ hp
      subst hr; subst hfd
      obtain ⟨C, c, hser, hsplit, hS⟩ := parSer _ _ _ _ _ _ hp hB
      rw [List.append_nil] at hsplit
      subst hsplit
      have hE : endBytes none true = ([] : List Nat) := rfl
      rw [hE, List.append_nil] at hS
      have hS2 : C.length ≤ B.length ∧ (C.length = B.length → C = B) := hS
      exact ⟨C, hser, hS2.1, hS2.2⟩
  · rw [if_neg hBl] at h
    simp only [Except.ok.injEq] at h
    subst h
    have hBnil : B = [] := by
      rcases B with _ | _
      · rfl
      · simp at hBl
    subst hBnil
    exact ⟨[], rfl, by simp, fun _ => rfl⟩

theorem C1_parse_serialize_witness :
    ∃ C, serFields [ProtoField.mk 1 0 (.int 0)] = .ok C ∧
      C.length ≤ ([8, 0] : List Nat).length ∧
      (C.length = ([8, 0] : List Nat).length → C = [8, 0]) :=
  C1_parse_serialize [8, 0] [ProtoField.mk 1 0 (.int 0)] (by decide) (by decide)

end LensProto
